import Mathlib

/-!
# Verification of the `@rbxts/crate` state container

This development embeds the update engine of the Crate state container
(`src/index.ts`, most evolved revision): the recursive diff/merge pass
(`apply` inside `update`), the shallow commit `this.state = {...state, ...diff}`,
the selector snapshot/notification cycle, the FIFO mutation queue
(`stepQueue` / `enqueue`), and the lifecycle (`cleanup`, `getState`).

Lua/roblox-ts runtime conventions that the embedding follows:
* values are `nil`, booleans, numbers, strings, functions, and tables;
  tables are either ordered sequences ("arrays") or string-keyed mappings;
* `Sift.Array.is` treats the empty table as an array;
* shallow equality helpers (`Sift.Array.equals`, `Sift.Dictionary.equals`,
  `==`/`~=`) compare primitives by value; two *distinct* table or function
  values are never `==`-equal (reference semantics).  In modeled runs a
  payload never aliases a state subtree, so a table operand on one side of a
  scalar comparison is modeled as not equal to the other side;
* indexing `nil`, a boolean, a number or a function raises an error, which
  rejects the running update task; indexing a table or a string with a
  missing key yields `nil`.
-/

namespace Crate

/-- Runtime values of the Lua data model.  `nilv` is Lua `nil`.  Function
values appear in update payloads as transformers: `fnConst r` models a
transformer that returns the fixed value `r`, `fnAdd n` models
`(v) => v + n` (an error on non-numbers).  `arr` is an ordered sequence and
`obj` a string-keyed mapping; the empty table is an `Array.is`-array. -/
inductive Val where
  | nilv    : Val
  | boolv   : Bool → Val
  | num     : Int → Val
  | strv    : String → Val
  | fnConst : Val → Val
  | fnAdd   : Int → Val
  | arr     : List Val → Val
  | obj     : List (String × Val) → Val
  deriving Repr

/-- `typeIs(value, "function")`. -/
def Val.isFn : Val → Bool
  | .fnConst _ => true
  | .fnAdd _ => true
  | _ => false

/-- `typeIs(value, "table")`. -/
def Val.isTable : Val → Bool
  | .arr _ => true
  | .obj _ => true
  | _ => false

/-- `Sift.Array.is(value)`: a table whose first integer slot is occupied, or
the (ambiguous) empty table. -/
def Val.isLuaArray : Val → Bool
  | .arr _ => true
  | .obj l => l.isEmpty
  | _ => false

/-- The value is a nonempty mapping: exactly the values routed to the
recursive object branch of `apply` (`typeIs(value, "table") && !Sift.Array.is(value)`). -/
def Val.isNEObj : Val → Bool
  | .obj (_ :: _) => true
  | _ => false

/-- The fields of a nonempty mapping, `none` otherwise: the classification
`typeIs(value, "table") && !Sift.Array.is(value)` performed by `apply`
before its object branch. -/
def Val.objNE : Val → Option (List (String × Val))
  | .obj (f :: fs) => some (f :: fs)
  | _ => none

/-- Lua `==` as used on the comparisons the diff engine performs: value
equality on `nil`/booleans/numbers/strings, and `false` whenever a table or
function is compared against a payload-fresh value (reference semantics; the
payload never aliases the state in modeled runs). -/
def scalarEq : Val → Val → Bool
  | .nilv, .nilv => true
  | .boolv a, .boolv b => a == b
  | .num a, .num b => a == b
  | .strv a, .strv b => a == b
  | _, _ => false

/-- First-match association-list lookup, i.e. Lua table read `l[k]` of a
string key (a Lua table holds each key at most once). -/
def lookupP (l : List (String × Val)) (k : String) : Option Val :=
  match l with
  | [] => none
  | (k₁, v) :: rest => if k₁ = k then some v else lookupP rest k

/-- Lua index operation `base[k]`: `nil`-defaulting on tables and strings,
an error (rejecting the running task) on `nil`, booleans, numbers, functions. -/
def luaIndex : Val → String → Except Unit Val
  | .obj l, k => .ok ((lookupP l k).getD .nilv)
  | .arr _, _ => .ok .nilv
  | .strv _, _ => .ok .nilv
  | _, _ => .error ()

/-- The integer-indexed elements a Lua `#`/`ipairs` traversal sees. -/
def luaArrayElems : Val → List Val
  | .arr xs => xs
  | _ => []

/-- `Sift.Array.equals(a, b)`: shallow ordered comparison — equal lengths and
element-wise Lua `==` (so table elements, being reference-distinct between a
fresh payload and the state, compare unequal; a non-table operand compares
unequal). -/
def siftArrayEquals (a b : Val) : Bool :=
  if b.isTable then
    let xs := luaArrayElems a
    let ys := luaArrayElems b
    xs.length == ys.length &&
      (List.zip xs ys).all (fun p => scalarEq p.1 p.2)
  else false

/-- `Sift.Dictionary.equals(a, b)`: shallow two-sided comparison of mapping
entries by Lua `==`. -/
def siftDictEquals (a b : Val) : Bool :=
  match a, b with
  | .obj la, .obj lb =>
      la.all (fun p => scalarEq p.2 ((lookupP lb p.1).getD .nilv)) &&
      lb.all (fun p => scalarEq p.2 ((lookupP la p.1).getD .nilv))
  | _, _ => false

/-- Invoking a payload transformer function on the current value at its path
(`value = value(pointer[key], level + 1)`). -/
def callFn : Val → Val → Except Unit Val
  | .fnConst r, _ => .ok r
  | .fnAdd n, .num m => .ok (.num (n + m))
  | .fnAdd _, _ => .error ()
  | v, _ => .ok v

/-- Per-key middleware interceptors `(oldValue, newValue) -> finalValue`.
`keepNew` passes the proposed value through, `constNum n` replaces it with
`n`, `addToNew n` adds `n` to a numeric proposed value (error otherwise). -/
inductive MwFn where
  | keepNew  : MwFn
  | constNum : Int → MwFn
  | addToNew : Int → MwFn
  deriving DecidableEq, Repr

/-- `executeMiddleware(key, oldValue, newValue)`: run the registered
interceptor (the 200ms duration warning is advisory instrumentation and has
no effect on the result). -/
def executeMiddleware : MwFn → Val → Val → Except Unit Val
  | .keepNew, _, v => .ok v
  | .constNum n, _, _ => .ok (.num n)
  | .addToNew n, _, .num m => .ok (.num (m + n))
  | .addToNew _, _, _ => .error ()

/-- The middleware table `middlewareMethods`. -/
abbrev MwTable := List (String × MwFn)

def mwLookup (mw : MwTable) (k : String) : Option MwFn :=
  match mw with
  | [] => none
  | (k₁, m) :: rest => if k₁ = k then some m else mwLookup rest k

/-- Resolve one payload entry to its candidate value, as the body of the
`for` loop in `apply` does before branching: invoke a transformer function
with `pointer[key]`, then (the `level === 0` guard is vacuous — the recursive
call `apply(value)` leaves `level` at its default `0`) pass the result
through middleware registered for `key`, with `this.state[key]` — the
*top-level* state — as `oldValue`. -/
def resolveCand (mw : MwTable) (top ptr : Val) (k : String) (v₀ : Val) :
    Except Unit Val := do
  let v₁ ← if v₀.isFn then do callFn v₀ (← luaIndex ptr k) else pure v₀
  match mwLookup mw k with
  | some m => do executeMiddleware m (← luaIndex top k) v₁
  | none => pure v₁

/-- The recursive diff pass `apply(obj, level)` from `update`, operating at
pointer `ptr` over the payload entries `l`, returning the diff fragment built
at this level together with the `changed` flag.  `fuel` bounds the recursion
(the real Lua recursion would blow the stack where fuel runs out; any actual
run of `applyTop` supplies enough fuel).  Per the source:
* a nonempty-mapping candidate recurses one level deeper with
  `pointer = pointer[key]`, and the nested diff entry is pruned when the
  recursion reports no changes;
* an array candidate is compared with `Sift.Array.equals(value, pointer[key])`
  and emitted wholesale if unequal;
* otherwise the comparison is `pointer[key] !== obj[key]` — against the
  *original* payload entry `v₀`, not the resolved candidate — and the
  resolved candidate is emitted on inequality.
Errors reject the running update task. -/
def apply (mw : MwTable) (top : Val) :
    Nat → Val → List (String × Val) → Except Unit (List (String × Val) × Bool)
  | _, _, [] => .ok ([], false)
  | 0, _, _ :: _ => .error ()
  | fuel + 1, ptr, (k, v₀) :: rest => do
      let value ← resolveCand mw top ptr k v₀
      match value.objNE with
      | some fields => do
          let sub ← luaIndex ptr k
          let (sd, sc) ← apply mw top fuel sub fields
          let (rd, rc) ← apply mw top fuel ptr rest
          .ok ((if sc then [(k, Val.obj sd)] else []) ++ rd, sc || rc)
      | none =>
          if value.isTable then do
            let cur ← luaIndex ptr k
            let (rd, rc) ← apply mw top fuel ptr rest
            if siftArrayEquals value cur then .ok (rd, rc)
            else .ok ((k, value) :: rd, true)
          else do
            let cur ← luaIndex ptr k
            let (rd, rc) ← apply mw top fuel ptr rest
            if scalarEq cur v₀ then .ok (rd, rc)
            else .ok ((k, value) :: rd, true)

/-- The top-level diff pass: `apply(data)` with `pointer = this.state`.
The fuel argument only bounds the modeled recursion; any run that returns
`.ok` is a faithful complete run of the source loop (see `apply_fuel_mono`). -/
def applyTop (fuel : Nat) (mw : MwTable) (st : Val) (p : List (String × Val)) :
    Except Unit (List (String × Val) × Bool) :=
  apply mw st fuel st p

/-- Overwrite-or-append a key in an association list (Lua table write). -/
def setKey (l : List (String × Val)) (k : String) (v : Val) :
    List (String × Val) :=
  match l with
  | [] => [(k, v)]
  | (k₁, v₁) :: rest =>
      if k₁ = k then (k₁, v) :: rest else (k₁, v₁) :: setKey rest k v

/-- The commit `this.state = { ...this.state, ...diff }`: a *shallow* merge
of the top-level diff entries over the top-level state keys. -/
def shallowMerge (st : Val) (d : List (String × Val)) : Val :=
  match st with
  | .obj fs => .obj (d.foldl (fun acc p => setKey acc p.1 p.2) fs)
  | _ => .obj d

/-- Read a nested path of string keys out of a value tree. -/
def getPath : Val → List String → Option Val
  | v, [] => some v
  | .obj l, k :: π => match lookupP l k with
      | some v => getPath v π
      | none => none
  | _, _ :: _ => none

/-! ## Selector machinery

Registered selectors are embedded as key paths into the state tree — the
shape `(state) => state.stats.coins` takes in practice.  Evaluating a path
step on a non-indexable value raises, exactly as the Lua projection would. -/

/-- A selector function, embedded as the path of keys it projects
(`[]` is the identity selector installed by the 1-argument `onUpdate`). -/
abbrev Sel := List String

/-- Run a selector against a state tree; a raise while indexing is an
uncaught Lua error. -/
def evalSel : Sel → Val → Except Unit Val
  | [], v => .ok v
  | k :: ks, v => do evalSel ks (← luaIndex v k)

/-- The pre-update snapshot loop of `update` (lines 122–123): evaluate every
registered selector against the current state *at submission time* and cache
the results.  A `nil` result is not stored (a Lua `Map.set` with `nil`
deletes), and a selector that raises here makes the whole `update` call
reject before anything is enqueued. -/
def snapshotSels (sels : List Sel) (st : Val) :
    Except Unit (List (Option Val)) :=
  sels.mapM fun s =>
    (evalSel s st).map fun v =>
      match v with
      | .nilv => none
      | v => some v

/-- The post-commit change test on one selector under the *structural*
abstraction: `Sift.Array.equals` when both results are arrays,
`Sift.Dictionary.equals` when both are tables, otherwise
`result !== fetch`.  Trees carry no reference identity, so table operands
compare unequal here even when the source would receive the identical
reference and report equal: this overapproximates fires on table-valued
selections (it agrees with the source on primitive results).  The faithful
reference-level test is `codeChangedR` below. -/
def selectorChanged (result fetch : Val) : Bool :=
  if result.isLuaArray && fetch.isLuaArray then !(siftArrayEquals result fetch)
  else if result.isTable && fetch.isTable then !(siftDictEquals result fetch)
  else !(scalarEq result fetch)

/-- The `for (const selector of this.updateSelectors)` notification loop run
after the commit: selectors whose snapshot is undefined are skipped
(`fetch === undefined → continue`); each remaining selector is re-evaluated
against the committed state — an uncaught raise aborts the loop, keeping the
fires already delivered and rejecting the task — and fires `(index, result)`
when `selectorChanged`.  `i` is the index of the first selector of `sels` in
the registry.  Like `selectorChanged`, this overapproximates fires on
table-valued results; the reference-faithful loop is `notifySelectorsR`
below. -/
def notifySelectors (st : Val) (snaps : List (Option Val)) :
    Nat → List Sel → List (Nat × Val) × Except Unit Unit
  | _, [] => ([], .ok ())
  | i, s :: rest =>
      match snaps.getD i none with
      | none => notifySelectors st snaps (i + 1) rest
      | some fetch =>
          match evalSel s st with
          | .error _ => ([], .error ())
          | .ok result =>
              let (fs, r) := notifySelectors st snaps (i + 1) rest
              if selectorChanged result fetch then ((i, result) :: fs, r)
              else (fs, r)

/-! ## The Crate instance

`CrateM` is the observable state of one `Crate` object: the owned tree, the
middleware and selector registries, the pending FIFO task queue, and the
event history — `diffLog` records every `diffSignal.Fire(diff)`, `fireLog`
every `updateSignal.Fire(address, result)` as `(selector index, result)`,
and `taskLog` the completion result delivered to each finished task's own
promise handle, in execution order.  `cleanup()` destroys `updateSignal`
(`updAlive := false`) but — per the source — not `diffSignal`. -/

structure Task where
  payload : List (String × Val)
  snaps : List (Option Val)
  deriving Repr

structure CrateM where
  enabled : Bool
  updAlive : Bool
  state : Val
  mw : MwTable
  selectors : List Sel
  queue : List Task
  diffLog : List (List (String × Val))
  fireLog : List (Nat × Val)
  taskLog : List (Except Unit Unit)
  deriving Repr

/-- A fresh crate: the constructor stores the given tree (`this.state = state`
— without a deep copy; aliasing consequences are studied in the heap model
below) and starts enabled with empty registries and queue. -/
def initCrate (st : Val) : CrateM :=
  { enabled := true, updAlive := true, state := st, mw := [], selectors := [],
    queue := [], diffLog := [], fireLog := [], taskLog := [] }

/-- `useMiddleware(key, middleware)`: single slot per key, last registration
wins. -/
def mwSet (mw : MwTable) (k : String) (m : MwFn) : MwTable :=
  match mw with
  | [] => [(k, m)]
  | (k₁, m₁) :: rest =>
      if k₁ = k then (k₁, m) :: rest else (k₁, m₁) :: mwSet rest k m

def useMiddleware (c : CrateM) (k : String) (m : MwFn) : CrateM :=
  { c with mw := mwSet c.mw k m }

/-- `onUpdate(selector, callback)`: registers the selector. -/
def onUpdate (c : CrateM) (s : Sel) : CrateM :=
  { c with selectors := c.selectors ++ [s] }

/-- The public `update(data)` call up to and including `enqueue`: assert
`enabled`, take the selector snapshots against the *current* state, and push
the task.  (The optional deep copy of the payload is the structural identity
here.)  Errors — the disposed assertion, or a selector raising during the
snapshot — reject the returned promise and nothing is enqueued. -/
def update (c : CrateM) (p : List (String × Val)) : Except Unit CrateM :=
  if c.enabled then
    match snapshotSels c.selectors c.state with
    | .ok sn => .ok { c with queue := c.queue ++ [⟨p, sn⟩] }
    | .error e => .error e
  else .error ()

/-- `cleanup()`: sets `enabled = false`, disconnects the tracked connections
and destroys `updateSignal` and `keyUpdateBind` — but not `diffSignal`, and
the pending queue is left in place. -/
def cleanup (c : CrateM) : CrateM :=
  { c with enabled := false, updAlive := false }

/-- `getState()` with no argument: a frozen deep copy of the tree
(structurally the tree itself), or the disposed error. -/
def getState (c : CrateM) : Except Unit Val :=
  if c.enabled then .ok c.state else .error ()

/-- `getState(key)`: `this.state[key]`, returned as-is, or the disposed
error. -/
def getStateKey (c : CrateM) (k : String) : Except Unit Val :=
  if c.enabled then luaIndex c.state k else .error ()

/-- Run the queued task at the head of the queue to completion: the diff
pass, then — only if it did not raise — the shallow commit, the diff-channel
fire when `hasStateChanged`, and the selector notification loop.  The task's
own handle receives the result recorded in `taskLog`.  Selector fires reach
listeners only while `updateSignal` is alive. -/
def runNext (fuel : Nat) (c : CrateM) : CrateM :=
  match c.queue with
  | [] => c
  | t :: rest =>
      match applyTop fuel c.mw c.state t.payload with
      | .error _ =>
          { c with queue := rest, taskLog := c.taskLog ++ [.error ()] }
      | .ok (d, ch) =>
          let st := shallowMerge c.state d
          let nf := notifySelectors st t.snaps 0 c.selectors
          { c with queue := rest,
                   state := st,
                   diffLog := if ch then c.diffLog ++ [d] else c.diffLog,
                   fireLog := if c.updAlive then c.fireLog ++ nf.1 else c.fireLog,
                   taskLog := c.taskLog ++ [nf.2] }

/-- External interaction with one crate: registrations and submissions from
the caller, interleaved with the externally-scheduled execution of queued
tasks (`runNext` fires when the host scheduler runs the promise
continuation that advances the queue). -/
inductive Act where
  | onUpd (s : Sel)
  | upd (p : List (String × Val))
  | runNext
  | cleanup
  deriving Repr

def stepA (fuel : Nat) (c : CrateM) : Act → CrateM
  | .onUpd s => onUpdate c s
  | .upd p =>
      match update c p with
      | .ok c₂ => c₂
      | .error _ => c
  | .runNext => runNext fuel c
  | .cleanup => cleanup c

def runActs (fuel : Nat) (c : CrateM) (acts : List Act) : CrateM :=
  acts.foldl (stepA fuel) c

/-! ## The mutation queue (`stepQueue` / `enqueue`)

The queue serializes update tasks.  Here a task is abstracted by its id and
by the result its `method()` promise settles with; `begin`/`settle` events
record, in order, each task starting and its result being delivered to that
task's own `resolve`/`reject` handle (the `.then/.catch` of `stepQueue`,
whose `.finally` then advances the queue). -/

namespace MutationQueue

inductive QEv where
  | begin (id : Nat)
  | settle (id : Nat) (r : Except String Nat)
  deriving Repr

structure QState where
  queue : List (Nat × Except String Nat)
  queueInProgress : Bool
  log : List QEv
  deriving Repr

/-- `stepQueue(recurse)`: the re-entrant guard returns immediately when a
cycle is already running and this is not the running cycle's own
continuation; otherwise the head entry is dequeued and run — its result
settling its own handle regardless of success or failure — and the `finally`
continuation steps again with `recurse = true`.  An empty queue clears the
in-progress flag. -/
def stepQueue : QState → Bool → QState
  | ⟨[], prog, log⟩, recurse =>
      if prog && !recurse then ⟨[], prog, log⟩ else ⟨[], false, log⟩
  | ⟨(id, r) :: rest, prog, log⟩, recurse =>
      if prog && !recurse then ⟨(id, r) :: rest, prog, log⟩
      else stepQueue ⟨rest, true, log ++ [.begin id, .settle id r]⟩ true
termination_by s _ => s.queue.length
decreasing_by simp

/-- `enqueue(cb)`: push the exploded promise and attempt to advance. -/
def enqueue (s : QState) (t : Nat × Except String Nat) : QState :=
  stepQueue { s with queue := s.queue ++ [t] } false

/-- The idle queue. -/
def idleQ : QState := { queue := [], queueInProgress := false, log := [] }

end MutationQueue

/-! ## `reconcileDiff`

Modelled from the spec: no revision of the source under `src/` contains
`reconcileDiff`; §4.6 specifies it as a static pure function that deep-copies
`state` (structurally the identity here) and then recursively merges `diff`
into the copy — nested mappings merge recursively, any other value type at a
path is an overwrite. -/

mutual

/-- Modelled from the spec: `reconcileDiff(state, diff) -> newState` (absent
from `src/`): deep-copy `state`, then merge `diff` recursively — two nested
mappings merge key-by-key, anything else overwrites. -/
def reconcileDiff : Val → Val → Val
  | .obj ls, .obj ld => .obj (reconcileFields ls ld)
  | _, d => d

/-- Modelled from the spec: the key-by-key merge step of `reconcileDiff`:
state keys keep their value unless the diff addresses them; diff-only keys
are appended. -/
def reconcileFields : List (String × Val) → List (String × Val) →
    List (String × Val)
  | [], ld => ld
  | (k, v) :: rest, ld =>
      match lookupP ld k with
      | some dv =>
          (k, reconcileDiff v dv) ::
            reconcileFields rest (ld.filter fun p => p.1 ≠ k)
      | none => (k, v) :: reconcileFields rest ld

end

/-! ## Heap model for reference semantics

The structural machine above abstracts Lua references away; construction and
`getState(key)` aliasing (claim-relevant through lines 59 and 266–276 of the
source) need them.  A heap maps table references to their string-keyed
fields; values are numbers or references to further tables. -/

abbrev Ref := Nat

inductive HVal where
  | hnum (n : Int) : HVal
  | href (r : Ref) : HVal
  deriving DecidableEq, Repr

abbrev Heap := List (Ref × List (String × HVal))

/-- The fields of the table `r` points to. -/
def heapFields (h : Heap) (r : Ref) : List (String × HVal) :=
  match h with
  | [] => []
  | (r₁, fs) :: rest => if r₁ = r then fs else heapFields rest r

def setHKey (l : List (String × HVal)) (k : String) (v : HVal) :
    List (String × HVal) :=
  match l with
  | [] => [(k, v)]
  | (k₁, v₁) :: rest =>
      if k₁ = k then (k₁, v) :: rest else (k₁, v₁) :: setHKey rest k v

/-- An in-place table write `tbl[k] = v` through reference `r`. -/
def setField (h : Heap) (r : Ref) (k : String) (v : HVal) : Heap :=
  match h with
  | [] => []
  | (r₁, fs) :: rest =>
      if r₁ = r then (r₁, setHKey fs k v) :: setField rest r k v
      else (r₁, fs) :: setField rest r k v

def lookupH (l : List (String × HVal)) (k : String) : Option HVal :=
  match l with
  | [] => none
  | (k₁, v) :: rest => if k₁ = k then some v else lookupH rest k

/-- The constructor body (line 59): `this.state = state` — the crate's owned
root is the caller's reference, unchanged and uncopied. -/
def construct (stateRef : Ref) : Ref := stateRef

/-- `getState(key)` on the heap (line 271): read `this.state[key]` and return
the stored value as-is — for a table field, the live reference. -/
def getStateKeyH (h : Heap) (stateRef : Ref) (k : String) : Option HVal :=
  lookupH (heapFields h stateRef) k

/-! ## Reference-level selector semantics

The structural machine compares selector results by value, which
overapproximates the source's comparisons on tables: the submission-time
snapshot and the post-commit re-evaluation of an *untouched* slice return
the same table reference, and `Sift.Array.equals` / `Sift.Dictionary.equals`
/ `!==` on an identical reference report equal, so the program stays silent.
This layer replays the snapshot (lines 122–123) and the notification loop
(lines 204–225) over an explicit heap where `===` on tables is reference
equality, making the change test faithful for table-valued selections too. -/

/-- A runtime value as the selector loop sees it: a primitive, or a
reference to a heap-allocated table.  `===` is decidable equality here —
references compare by identity. -/
inductive RVal where
  | rnil : RVal
  | rbool (b : Bool) : RVal
  | rnum (n : Int) : RVal
  | rstr (s : String) : RVal
  | rref (r : Ref) : RVal
  deriving Repr, DecidableEq

/-- A heap table: a string-keyed mapping or an integer-indexed sequence. -/
inductive RNode where
  | robj (fields : List (String × RVal)) : RNode
  | rarr (elems : List RVal) : RNode
  deriving Repr, DecidableEq

abbrev RHeap := List (Ref × RNode)

/-- First-match node lookup. -/
def rLookupNode : RHeap → Ref → Option RNode
  | [], _ => none
  | (r₁, n) :: rest, r => if r₁ = r then some n else rLookupNode rest r

/-- First-match field lookup inside one mapping node. -/
def rLookup : List (String × RVal) → String → Option RVal
  | [], _ => none
  | (k₁, v) :: rest, k => if k₁ = k then some v else rLookup rest k

/-- `typeIs(value, "table")` on a runtime value: exactly the references. -/
def RVal.isRTable : RVal → Bool
  | .rref _ => true
  | _ => false

/-- `Sift.Array.is(value)` on a runtime value: a sequence node, or the
(ambiguous) empty table. -/
def rIsArray (h : RHeap) : RVal → Bool
  | .rref r =>
      match rLookupNode h r with
      | some (.rarr _) => true
      | some (.robj fs) => fs.isEmpty
      | none => false
  | _ => false

/-- Lua index `base[k]` at the reference level: `nil`-defaulting on tables
and strings, an error on `nil`, booleans and numbers (mirrors `luaIndex`). -/
def rIndex (h : RHeap) : RVal → String → Except Unit RVal
  | .rref r, k =>
      match rLookupNode h r with
      | some (.robj fs) => .ok ((rLookup fs k).getD .rnil)
      | some (.rarr _) => .ok .rnil
      | none => .ok .rnil
  | .rstr _, _ => .ok .rnil
  | _, _ => .error ()

/-- Run a selector path against a heap value. -/
def evalSelR (h : RHeap) : Sel → RVal → Except Unit RVal
  | [], v => .ok v
  | k :: ks, v => do evalSelR h ks (← rIndex h v k)

/-- Storing one snapshot: a Lua `Map.set` with `nil` deletes, so a `nil`
result is not stored. -/
def optSnap : RVal → Option RVal
  | .rnil => none
  | w => some w

/-- The pre-update snapshot loop (lines 122–123) at the reference level: a
`nil` result is not stored, and a raise rejects the whole `update` call. -/
def snapshotSelsR (h : RHeap) (st : RVal) :
    List Sel → Except Unit (List (Option RVal))
  | [] => .ok []
  | s :: rest => do
      let v ← evalSelR h s st
      let sn ← snapshotSelsR h st rest
      .ok (optSnap v :: sn)

/-- The elements an `ipairs` traversal of the value sees. -/
def rElems (h : RHeap) : RVal → List RVal
  | .rref r =>
      match rLookupNode h r with
      | some (.rarr es) => es
      | _ => []
  | _ => []

/-- `Sift.Array.equals(a, b)` at the reference level: equal lengths and
element-wise `===` — reference equality on table elements. -/
def siftArrayEqualsR (h : RHeap) (a b : RVal) : Bool :=
  decide (rElems h a = rElems h b)

/-- One-sided shallow inclusion of mapping entries by `===`. -/
def rFieldsSub (fa fb : List (String × RVal)) : Bool :=
  fa.all fun p => decide (rLookup fb p.1 = some p.2)

/-- `Sift.Dictionary.equals(a, b)` at the reference level: the two sides'
entries agree by `===` (sequence nodes carry integer keys, so they agree
with a mapping node only when both are entryless). -/
def siftDictEqualsR (h : RHeap) (a b : RVal) : Bool :=
  match a, b with
  | .rref ra, .rref rb =>
      match rLookupNode h ra, rLookupNode h rb with
      | some (.robj fa), some (.robj fb) => rFieldsSub fa fb && rFieldsSub fb fa
      | some (.rarr ea), some (.rarr eb) => decide (ea = eb)
      | some (.robj fa), some (.rarr eb) => fa.isEmpty && eb.isEmpty
      | some (.rarr ea), some (.robj fb) => ea.isEmpty && fb.isEmpty
      | _, _ => false
  | _, _ => false

/-- The post-commit change test on one selector (lines 214–220), faithful:
`Sift.Array.equals` when both results are arrays, `Sift.Dictionary.equals`
when both are tables, otherwise `result !== fetch`. -/
def codeChangedR (h : RHeap) (result fetch : RVal) : Bool :=
  if rIsArray h result && rIsArray h fetch then
    !(siftArrayEqualsR h result fetch)
  else if result.isRTable && fetch.isRTable then
    !(siftDictEqualsR h result fetch)
  else !(decide (result = fetch))

/-- The notification loop (lines 204–225) at the reference level: selectors
whose snapshot is undefined are skipped, a raise aborts the loop rejecting
the task, and `(index, result)` fires when `codeChangedR`. -/
def notifySelectorsR (h : RHeap) (st : RVal) (snaps : List (Option RVal)) :
    Nat → List Sel → List (Nat × RVal) × Except Unit Unit
  | _, [] => ([], .ok ())
  | i, s :: rest =>
      match snaps.getD i none with
      | none => notifySelectorsR h st snaps (i + 1) rest
      | some fetch =>
          match evalSelR h s st with
          | .error _ => ([], .error ())
          | .ok result =>
              let (fs, r) := notifySelectorsR h st snaps (i + 1) rest
              if codeChangedR h result fetch then ((i, result) :: fs, r)
              else (fs, r)

/-- The unconditional commit `this.state = { ...this.state, ...diff }` for a
no-change cycle (`diff` empty): allocate a fresh table carrying the same
entries — references are copied, the tables they denote are not. -/
def spreadCommit (h : RHeap) (fs : List (String × RVal)) (r₂ : Ref) : RHeap :=
  h ++ [(r₂, .robj fs)]

/-- The value does not mention reference `r`. -/
def rvAvoids (r : Ref) : RVal → Bool
  | .rref r₁ => decide (r₁ ≠ r)
  | _ => true

/-- The values one node stores. -/
def rNodeVals : RNode → List RVal
  | .robj fs => fs.map Prod.snd
  | .rarr es => es

/-- `r` is fresh for the heap: not allocated, and no stored value references
it (a newly constructed table). -/
def rFresh (r : Ref) (h : RHeap) : Bool :=
  h.all fun p => decide (p.1 ≠ r) && (rNodeVals p.2).all (rvAvoids r)

/-- The value is a primitive or points to an allocated table. -/
def rvInHeap (h : RHeap) : RVal → Bool
  | .rref r => (rLookupNode h r).isSome
  | _ => true

/-- No duplicate keys at one mapping node. -/
def nodupRKeys : List (String × RVal) → Bool
  | [] => true
  | (k, _) :: rest => !(rest.any fun p => p.1 == k) && nodupRKeys rest

/-- A heap every real Lua state satisfies: mapping nodes are duplicate-free
and every stored reference is allocated (the heap is closed). -/
def rWF (h : RHeap) : Bool :=
  h.all fun p =>
    (match p.2 with
     | .robj fs => nodupRKeys fs
     | .rarr _ => true) &&
    (rNodeVals p.2).all (rvInHeap h)

/-! ## Specification-side definitions for the diff characterization -/

/-- A value that is neither a table nor a function: Lua `==` on it is plain
value equality (`scalarEq`). -/
def Val.isScalar (v : Val) : Bool := !v.isTable && !v.isFn

/-- No duplicate keys at one mapping level (all Lua tables satisfy this). -/
def nodupKeys : List (String × Val) → Bool
  | [] => true
  | (k, _) :: rest => !(rest.any fun p => p.1 == k) && nodupKeys rest

mutual

/-- Every mapping level reachable as an `apply` payload level — nested
literal objects and the bodies of constant transformers — has no duplicate
keys.  Lua tables always satisfy this. -/
def pWF : Val → Bool
  | .obj l => nodupKeys l && pWFList l
  | .fnConst r => pWF r
  | _ => true

/-- Pointwise `pWF` over the values of one mapping level. -/
def pWFList : List (String × Val) → Bool
  | [] => true
  | (_, v) :: rest => pWF v && pWFList rest

end

/-- Path-directed specification of the diff leaves: `leafSpec cur l π` is
`some v` exactly when one middleware-free `apply` pass at pointer `cur` over
payload `l` emits the non-nested-mapping diff entry `v` at path `π`.  The
recursion follows the path, not the payload traversal: at each step the
payload entry for the key is resolved to its candidate; a nonempty-mapping
candidate lets the path descend (an intermediate node, never a leaf), an
array candidate is a leaf iff shallow sequence equality with the current
value fails, and any other candidate is a leaf iff `pointer[key] !== obj[key]`
— the original payload entry, so a transformer-produced candidate compares
the function value itself and always differs from a function-free state. -/
def leafSpec : Val → List (String × Val) → List String → Option Val
  | _, _, [] => none
  | cur, l, k :: π =>
      match lookupP l k with
      | none => none
      | some v₀ =>
          match resolveCand [] cur cur k v₀ with
          | .error _ => none
          | .ok v₂ =>
              match v₂.objNE with
              | some fields =>
                  match π with
                  | [] => none
                  | _ :: _ =>
                      leafSpec ((luaIndex cur k).toOption.getD .nilv) fields π
              | none =>
                  match π with
                  | [] =>
                      if v₂.isTable then
                        if siftArrayEquals v₂ ((luaIndex cur k).toOption.getD .nilv)
                        then none else some v₂
                      else
                        if scalarEq ((luaIndex cur k).toOption.getD .nilv) v₀
                        then none else some v₂
                  | _ :: _ => none

/-- The key path to some non-nested-mapping descendant of a value (descend
through the first field of each nonempty mapping). -/
def firstLeafPath : Val → List String
  | .obj ((k, v) :: _) => k :: firstLeafPath v
  | _ => []

/-- The value `firstLeafPath` descends to. -/
def firstLeafVal : Val → Val
  | .obj ((_, v) :: _) => firstLeafVal v
  | v => v

/-! ## Monadic reduction helpers -/

theorem except_ok_bind {ε α β : Type} (a : α) (f : α → Except ε β) :
    (Except.ok a : Except ε α) >>= f = f a := rfl

theorem except_error_bind {ε α β : Type} (e : ε) (f : α → Except ε β) :
    (Except.error e : Except ε α) >>= f = Except.error e := rfl

theorem except_pure_bind {ε α β : Type} (a : α) (f : α → Except ε β) :
    (pure a : Except ε α) >>= f = f a := rfl

/-! ## Queue lemmas -/

namespace MutationQueue

theorem stepQueue_idle (L : List QEv) (b : Bool) :
    stepQueue { queue := [], queueInProgress := b, log := L } true
      = { queue := [], queueInProgress := false, log := L } := by
  simp [stepQueue]

theorem enqueue_idle (L : List QEv) (t : Nat × Except String Nat) :
    enqueue { queue := [], queueInProgress := false, log := L } t
      = { queue := [], queueInProgress := false,
          log := L ++ [.begin t.1, .settle t.1 t.2] } := by
  obtain ⟨id, r⟩ := t
  simp [enqueue, stepQueue]

theorem foldl_enqueue_idle (ts : List (Nat × Except String Nat)) (L : List QEv) :
    ts.foldl enqueue { queue := [], queueInProgress := false, log := L }
      = { queue := [], queueInProgress := false,
          log := L ++ ts.flatMap fun t => [.begin t.1, .settle t.1 t.2] } := by
  induction ts generalizing L with
  | nil => simp
  | cons t ts ih =>
      simp only [List.foldl_cons, enqueue_idle, ih, List.flatMap_cons,
        List.append_assoc, List.cons_append, List.nil_append]

end MutationQueue

/-! ## Heap lemmas -/

theorem lookupH_setHKey (l : List (String × HVal)) (k : String) (v : HVal) :
    lookupH (setHKey l k v) k = some v := by
  induction l with
  | nil => simp [setHKey, lookupH]
  | cons p rest ih =>
      by_cases hk : p.1 = k
      · simp [setHKey, lookupH, hk]
      · simp [setHKey, lookupH, hk, ih]

theorem heapFields_setField (h : Heap) (r : Ref) (k : String) (v : HVal)
    (hmem : r ∈ h.map Prod.fst) :
    heapFields (setField h r k v) r = setHKey (heapFields h r) k v := by
  induction h with
  | nil => simp at hmem
  | cons p rest ih =>
      obtain ⟨r₁, fs⟩ := p
      by_cases hr : r₁ = r
      · subst hr
        simp [setField, heapFields]
      · have hmem₂ : r ∈ rest.map Prod.fst := by
          simp only [List.map_cons, List.mem_cons] at hmem
          rcases hmem with h₁ | h₁
          · exact absurd h₁.symm hr
          · exact h₁
        simp [setField, heapFields, hr, ih hmem₂]

/-! ## Claim C2 -/

/-- C2: the frame property fails in the code.  With pre-update state
`{a: {b: 1, c: 2}}` and payload `{a: {b: 5}}`, the diff pass emits only
`{a: {b: 5}}` and the commit `this.state = {...state, ...diff}` merges it
*shallowly*, so the committed state is `{a: {b: 5}}`: the path `a.c`, absent
from both payload and diff, loses its pre-update value `2` instead of
retaining it. -/
theorem c2_sibling_keys_dropped :
    (runActs 10 (initCrate (.obj [("a", .obj [("b", .num 1), ("c", .num 2)])]))
        [.upd [("a", .obj [("b", .num 5)])], .runNext]).state
      = .obj [("a", .obj [("b", .num 5)])] ∧
    (runActs 10 (initCrate (.obj [("a", .obj [("b", .num 1), ("c", .num 2)])]))
        [.upd [("a", .obj [("b", .num 5)])], .runNext]).diffLog
      = [[("a", .obj [("b", .num 5)])]] ∧
    getPath (.obj [("a", .obj [("b", .num 1), ("c", .num 2)])]) ["a", "c"]
      = some (.num 2) ∧
    getPath (.obj [("a", .obj [("b", .num 5)])]) ["a", "c"] = none ∧
    getPath (.obj [("a", .obj [("b", .num 5)])]) ["a", "b"] = some (.num 5) :=
  ⟨rfl, rfl, rfl, rfl, rfl⟩

/-! ## Claim C5 -/

/-- C5: queued update tasks run strictly in submission order, one at a time:
from an idle queue, any sequence of `enqueue`d tasks produces the event log
`begin t₁, settle t₁, begin t₂, settle t₂, …` in submission order — each
task's result (success or failure) is delivered to that task's own handle,
a failed task does not prevent later tasks from running, and the queue
drains.  Moreover enqueueing while a cycle is in progress only queues the
entry: the re-entrant guard leaves the running cycle to dequeue it later. -/
theorem c5_queue_fifo_and_error_isolation :
    (∀ ts : List (Nat × Except String Nat),
        ts.foldl MutationQueue.enqueue MutationQueue.idleQ
          = { queue := [], queueInProgress := false,
              log := ts.flatMap fun t =>
                [.begin t.1, .settle t.1 t.2] }) ∧
    (∀ (q : List (Nat × Except String Nat)) (L : List MutationQueue.QEv) t,
        MutationQueue.enqueue
            { queue := q, queueInProgress := true, log := L } t
          = { queue := q ++ [t], queueInProgress := true, log := L }) := by
  constructor
  · intro ts
    rw [MutationQueue.idleQ, MutationQueue.foldl_enqueue_idle]
    simp
  · intro q L t
    obtain ⟨id, r⟩ := t
    cases q with
    | nil => simp [MutationQueue.enqueue, MutationQueue.stepQueue]
    | cons p q =>
        obtain ⟨id₂, r₂⟩ := p
        simp [MutationQueue.enqueue, MutationQueue.stepQueue]

/-! ## Claim C6 -/

/-- C6: `reconcileDiff` (modelled from the spec; absent from `src/`)
deep-copies the state and merges the diff recursively — nested mappings
merge key-by-key, other values overwrite — so
`reconcileDiff({a:{b:1,c:2}}, {a:{b:5}})` yields `{a:{b:5,c:2}}`. -/
theorem c6_reconcileDiff_scenario :
    reconcileDiff (.obj [("a", .obj [("b", .num 1), ("c", .num 2)])])
        (.obj [("a", .obj [("b", .num 5)])])
      = .obj [("a", .obj [("b", .num 5), ("c", .num 2)])] := by
  simp [reconcileDiff, reconcileFields, lookupP]

/-! ## Claim C7 -/

/-- C7: counterexample.  An update enqueued before `cleanup()` still runs
afterwards and still fires the diff channel: `cleanup` destroys
`updateSignal` and `keyUpdateBind` but not `diffSignal`, and leaves the
pending queue in place.  Here the queued `update({x:1})` runs after
`cleanup()` and the diff channel receives `{x:1}` even though the crate is
disposed (the selector channel, which `cleanup` does destroy, stays
silent). -/
theorem c7_counterexample :
    (runActs 10 (initCrate (.obj [("x", .num 0)]))
        [.onUpd ["x"], .upd [("x", .num 1)], .cleanup, .runNext]).diffLog
      = [[("x", .num 1)]] ∧
    (runActs 10 (initCrate (.obj [("x", .num 0)]))
        [.onUpd ["x"], .upd [("x", .num 1)], .cleanup, .runNext]).fireLog
      = [] ∧
    (runActs 10 (initCrate (.obj [("x", .num 0)]))
        [.onUpd ["x"], .upd [("x", .num 1)], .cleanup, .runNext]).enabled
      = false :=
  ⟨rfl, rfl, rfl⟩

/-- C7 (amended): after `cleanup()` every `update` and `getState` call fails
with the disposed-precondition error, and no selector listener ever fires
again (their signal is destroyed); but an update already queued at cleanup
time still runs when the queue advances, and the diff channel — which
`cleanup` does not destroy — still fires for it. -/
theorem runNext_fireLog_of_dead (fuel : Nat) (c : CrateM)
    (halive : c.updAlive = false) :
    (runNext fuel c).fireLog = c.fireLog := by
  rw [runNext]
  cases hq : c.queue with
  | nil => rfl
  | cons t rest =>
      cases happ : applyTop fuel c.mw c.state t.payload with
      | error e => simp [happ]
      | ok dc =>
          obtain ⟨d, ch⟩ := dc
          simp [happ, halive]

theorem c7_disposed_behavior (c : CrateM) (p : List (String × Val))
    (k : String) (fuel : Nat) :
    update (cleanup c) p = .error () ∧
    getState (cleanup c) = .error () ∧
    getStateKey (cleanup c) k = .error () ∧
    (runNext fuel (cleanup c)).fireLog = c.fireLog ∧
    cleanup (cleanup c) = cleanup c :=
  ⟨rfl, rfl, rfl, runNext_fireLog_of_dead fuel (cleanup c) rfl, rfl⟩

/-! ## Claim C10 -/

/-- C10: counterexample.  The constructor stores the caller's object by
reference (`this.state = state`, line 59), so mutating the caller's
`initialState` *after* construction changes what the crate reports; and
`getState(key)` hands back the live stored reference.  Heap: table `0` is
the caller's `initialState` `{a: <table 1>}`, table `1` is `{b: 1}`.  After
the caller writes `99` into its own nested table, the crate's view of
`a.b` is `99`, not the construction-time `1` — and `getState("a")` returns
the live reference `1` itself. -/
theorem c10_counterexample :
    construct 0 = 0 ∧
    getStateKeyH [(0, [("a", .href 1)]), (1, [("b", .hnum 1)])]
        (construct 0) "a" = some (.href 1) ∧
    lookupH (heapFields [(0, [("a", .href 1)]), (1, [("b", .hnum 1)])] 1) "b"
      = some (.hnum 1) ∧
    lookupH
        (heapFields
          (setField [(0, [("a", .href 1)]), (1, [("b", .hnum 1)])]
            1 "b" (.hnum 99))
          1) "b"
      = some (.hnum 99) ∧
    getStateKeyH
        (setField [(0, [("a", .href 1)]), (1, [("b", .hnum 1)])]
          1 "b" (.hnum 99))
        (construct 0) "a" = some (.href 1) :=
  ⟨rfl, rfl, rfl, rfl, rfl⟩

/-- C10 (amended): construction stores the caller's reference without a deep
copy, so any later in-place write through the caller's `initialState`
reference is visible through the crate's owned root: writing `v` at key `k`
of the root table makes the crate's keyed read return exactly `v`. -/
theorem c10_construct_aliasing (h : Heap) (r : Ref) (k : String) (v : HVal)
    (hmem : r ∈ h.map Prod.fst) :
    construct r = r ∧
    getStateKeyH (setField h r k v) (construct r) k = some v := by
  refine ⟨rfl, ?_⟩
  rw [getStateKeyH, construct, heapFields_setField h r k v hmem,
    lookupH_setHKey]

/-! ## Diff-pass structural lemmas (claim C1) -/

theorem resolveCand_top_irrelevant (t₁ t₂ p : Val) (k : String) (v : Val) :
    resolveCand [] t₁ p k v = resolveCand [] t₂ p k v := rfl

/-- Inversion of one `apply` step at a cons payload. -/
theorem apply_cons_inv (mw : MwTable) (top : Val) (fuel : Nat) (ptr : Val)
    (k : String) (v₀ : Val) (rest : List (String × Val))
    (d : List (String × Val)) (ch : Bool)
    (h : apply mw top (fuel + 1) ptr ((k, v₀) :: rest) = .ok (d, ch)) :
    ∃ v₂, resolveCand mw top ptr k v₀ = .ok v₂ ∧
      ((∃ fields sub sd sc rd rc, v₂.objNE = some fields ∧
          luaIndex ptr k = .ok sub ∧
          apply mw top fuel sub fields = .ok (sd, sc) ∧
          apply mw top fuel ptr rest = .ok (rd, rc) ∧
          d = (if sc then [(k, Val.obj sd)] else []) ++ rd ∧
          ch = (sc || rc)) ∨
       (v₂.objNE = none ∧ v₂.isTable = true ∧
          ∃ cur rd rc, luaIndex ptr k = .ok cur ∧
            apply mw top fuel ptr rest = .ok (rd, rc) ∧
            ((siftArrayEquals v₂ cur = true ∧ d = rd ∧ ch = rc) ∨
             (siftArrayEquals v₂ cur = false ∧
                d = (k, v₂) :: rd ∧ ch = true))) ∨
       (v₂.objNE = none ∧ v₂.isTable = false ∧
          ∃ cur rd rc, luaIndex ptr k = .ok cur ∧
            apply mw top fuel ptr rest = .ok (rd, rc) ∧
            ((scalarEq cur v₀ = true ∧ d = rd ∧ ch = rc) ∨
             (scalarEq cur v₀ = false ∧
                d = (k, v₂) :: rd ∧ ch = true)))) := by
  rw [apply] at h
  cases hres : resolveCand mw top ptr k v₀ with
  | error e =>
      simp only [hres, except_error_bind] at h
      exact Except.noConfusion h
  | ok v₂ =>
      refine ⟨v₂, rfl, ?_⟩
      cases hobj : v₂.objNE with
      | some fields =>
          left
          cases hsub : luaIndex ptr k with
          | error e =>
              simp only [hres, hobj, hsub, except_ok_bind,
                except_error_bind] at h
              exact Except.noConfusion h
          | ok sub =>
              cases hsc : apply mw top fuel sub fields with
              | error e =>
                  simp only [hres, hobj, hsub, hsc, except_ok_bind,
                    except_error_bind] at h
                  exact Except.noConfusion h
              | ok sr =>
                  obtain ⟨sd, sc⟩ := sr
                  cases hrc : apply mw top fuel ptr rest with
                  | error e =>
                      simp only [hres, hobj, hsub, hsc, hrc, except_ok_bind,
                        except_error_bind] at h
                      exact Except.noConfusion h
                  | ok rr =>
                      obtain ⟨rd, rc⟩ := rr
                      simp [hres, hobj, hsub, hsc, hrc, except_ok_bind] at h
                      obtain ⟨h₁, h₂⟩ := h
                      subst h₁
                      subst h₂
                      exact ⟨fields, sub, sd, sc, rd, rc, rfl, rfl, hsc, rfl,
                        rfl, rfl⟩
      | none =>
          by_cases htab : v₂.isTable = true
          · right; left
            refine ⟨rfl, htab, ?_⟩
            cases hcur : luaIndex ptr k with
            | error e =>
                simp only [hres, hobj, htab, hcur, except_ok_bind,
                  except_error_bind] at h
                exact Except.noConfusion h
            | ok cur =>
                cases hrc : apply mw top fuel ptr rest with
                | error e =>
                    simp only [hres, hobj, htab, hcur, hrc, except_ok_bind,
                      except_error_bind] at h
                    exact Except.noConfusion h
                | ok rr =>
                    obtain ⟨rd, rc⟩ := rr
                    refine ⟨cur, rd, rc, rfl, rfl, ?_⟩
                    by_cases heq : siftArrayEquals v₂ cur = true
                    · simp [hres, hobj, htab, hcur, hrc, heq,
                        except_ok_bind] at h
                      obtain ⟨h₁, h₂⟩ := h
                      subst h₁
                      subst h₂
                      exact Or.inl ⟨heq, rfl, rfl⟩
                    · have hne : siftArrayEquals v₂ cur = false := by
                        simpa using heq
                      simp [hres, hobj, htab, hcur, hrc, hne,
                        except_ok_bind] at h
                      obtain ⟨h₁, h₂⟩ := h
                      subst h₁
                      subst h₂
                      exact Or.inr ⟨hne, rfl, rfl⟩
          · right; right
            have hnt : v₂.isTable = false := by simpa using htab
            refine ⟨rfl, hnt, ?_⟩
            cases hcur : luaIndex ptr k with
            | error e =>
                simp only [hres, hobj, hnt, hcur, except_ok_bind,
                  except_error_bind, Bool.false_eq_true, if_false] at h
                exact Except.noConfusion h
            | ok cur =>
                cases hrc : apply mw top fuel ptr rest with
                | error e =>
                    simp only [hres, hobj, hnt, hcur, hrc, except_ok_bind,
                      except_error_bind, Bool.false_eq_true, if_false] at h
                    exact Except.noConfusion h
                | ok rr =>
                    obtain ⟨rd, rc⟩ := rr
                    refine ⟨cur, rd, rc, rfl, rfl, ?_⟩
                    by_cases heq : scalarEq cur v₀ = true
                    · simp [hres, hobj, hnt, hcur, hrc, heq,
                        except_ok_bind] at h
                      obtain ⟨h₁, h₂⟩ := h
                      subst h₁
                      subst h₂
                      exact Or.inl ⟨heq, rfl, rfl⟩
                    · have hne : scalarEq cur v₀ = false := by simpa using heq
                      simp [hres, hobj, hnt, hcur, hrc, hne,
                        except_ok_bind] at h
                      obtain ⟨h₁, h₂⟩ := h
                      subst h₁
                      subst h₂
                      exact Or.inr ⟨hne, rfl, rfl⟩

theorem apply_nil (mw : MwTable) (top : Val) (fuel : Nat) (ptr : Val) :
    apply mw top fuel ptr [] = .ok ([], false) := by
  cases fuel <;> rfl

theorem lookupP_cons_ne (k₁ k : String) (x : Val)
    (l : List (String × Val)) (h : k₁ ≠ k) :
    lookupP ((k₁, x) :: l) k = lookupP l k := by
  rw [lookupP, if_neg h]

theorem lookupP_cons_self (k : String) (x : Val) (l : List (String × Val)) :
    lookupP ((k, x) :: l) k = some x := by
  rw [lookupP, if_pos rfl]

theorem lookupP_ite_head (sc : Bool) (k₁ k : String) (x : Val)
    (rd : List (String × Val)) (h : k₁ ≠ k) :
    lookupP ((if sc then [(k₁, x)] else []) ++ rd) k = lookupP rd k := by
  cases sc
  · simp [lookupP]
  · simp [lookupP, if_neg h]

/-- Keys never in the payload level never get diff entries at that level. -/
theorem apply_keys (mw : MwTable) (top : Val) :
    ∀ (fuel : Nat) (ptr : Val) (l d : List (String × Val)) (ch : Bool)
      (k : String),
      apply mw top fuel ptr l = .ok (d, ch) →
      lookupP l k = none → lookupP d k = none := by
  intro fuel
  induction fuel with
  | zero =>
      intro ptr l d ch k h hl
      cases l with
      | nil =>
          rw [apply_nil] at h
          simp only [Except.ok.injEq, Prod.mk.injEq] at h
          rw [← h.1]
          rfl
      | cons p rest => exact Except.noConfusion h
  | succ fuel ih =>
      intro ptr l d ch k h hl
      cases l with
      | nil =>
          rw [apply_nil] at h
          simp only [Except.ok.injEq, Prod.mk.injEq] at h
          rw [← h.1]
          rfl
      | cons p rest =>
          obtain ⟨k₁, v₀⟩ := p
          have hk : k₁ ≠ k ∧ lookupP rest k = none := by
            rw [lookupP] at hl
            by_cases hkk : k₁ = k
            · rw [if_pos hkk] at hl; exact Option.noConfusion hl
            · rw [if_neg hkk] at hl; exact ⟨hkk, hl⟩
          obtain ⟨v₂, hres, hcase⟩ := apply_cons_inv mw top fuel ptr k₁ v₀
            rest d ch h
          rcases hcase with
            ⟨fields, sub, sd, sc, rd, rc, _, _, _, hrc, hd, _⟩ |
            ⟨_, _, cur, rd, rc, _, hrc, hsplit⟩ |
            ⟨_, _, cur, rd, rc, _, hrc, hsplit⟩
          · subst hd
            rw [lookupP_ite_head sc k₁ k (Val.obj sd) rd hk.1]
            exact ih ptr rest rd rc k hrc hk.2
          · rcases hsplit with ⟨_, hd, _⟩ | ⟨_, hd, _⟩ <;> subst hd
            · exact ih ptr rest _ _ k hrc hk.2
            · rw [lookupP_cons_ne k₁ k v₂ _ hk.1]
              exact ih ptr rest _ _ k hrc hk.2
          · rcases hsplit with ⟨_, hd, _⟩ | ⟨_, hd, _⟩ <;> subst hd
            · exact ih ptr rest _ _ k hrc hk.2
            · rw [lookupP_cons_ne k₁ k v₂ _ hk.1]
              exact ih ptr rest _ _ k hrc hk.2

/-- The `changed` flag is exactly diff-nonemptiness at every level. -/
theorem apply_changed_iff (mw : MwTable) (top : Val) :
    ∀ (fuel : Nat) (ptr : Val) (l d : List (String × Val)) (ch : Bool),
      apply mw top fuel ptr l = .ok (d, ch) → (ch = true ↔ d ≠ []) := by
  intro fuel
  induction fuel with
  | zero =>
      intro ptr l d ch h
      cases l with
      | nil =>
          rw [apply_nil] at h
          simp only [Except.ok.injEq, Prod.mk.injEq] at h
          rw [← h.1, ← h.2]
          simp
      | cons p rest => exact Except.noConfusion h
  | succ fuel ih =>
      intro ptr l d ch h
      cases l with
      | nil =>
          rw [apply_nil] at h
          simp only [Except.ok.injEq, Prod.mk.injEq] at h
          rw [← h.1, ← h.2]
          simp
      | cons p rest =>
          obtain ⟨k₁, v₀⟩ := p
          obtain ⟨v₂, hres, hcase⟩ := apply_cons_inv mw top fuel ptr k₁ v₀
            rest d ch h
          rcases hcase with
            ⟨fields, sub, sd, sc, rd, rc, _, _, _, hrc, hd, hch⟩ |
            ⟨_, _, cur, rd, rc, _, hrc, hsplit⟩ |
            ⟨_, _, cur, rd, rc, _, hrc, hsplit⟩
          · subst hd
            subst hch
            cases sc with
            | true => simp
            | false =>
                simp only [Bool.false_or, if_false, List.nil_append]
                exact ih ptr rest rd rc hrc
          · rcases hsplit with ⟨_, hd, hch⟩ | ⟨_, hd, hch⟩ <;>
              subst hd <;> subst hch
            · exact ih ptr rest _ _ hrc
            · simp
          · rcases hsplit with ⟨_, hd, hch⟩ | ⟨_, hd, hch⟩ <;>
              subst hd <;> subst hch
            · exact ih ptr rest _ _ hrc
            · simp

theorem objNE_none_isNEObj (v : Val) (h : v.objNE = none) :
    v.isNEObj = false := by
  cases v with
  | obj l => cases l with
    | nil => rfl
    | cons f fs => exact Option.noConfusion h
  | _ => rfl

theorem objNE_some_val (v : Val) (fields : List (String × Val))
    (h : v.objNE = some fields) : v = .obj fields := by
  cases v with
  | obj l =>
      cases l with
      | nil => exact Option.noConfusion h
      | cons f fs =>
          rw [Val.objNE] at h
          injection h with h₁
          rw [h₁]
  | _ => exact Option.noConfusion h

/-- Middleware-free candidate resolution classifies: a nonempty-mapping
candidate is either the literal payload entry or the body of a constant
transformer. -/
theorem resolve_nil_objNE (top ptr : Val) (k : String) (v₀ v₂ : Val)
    (fields : List (String × Val))
    (hres : resolveCand [] top ptr k v₀ = .ok v₂)
    (hobj : v₂.objNE = some fields) :
    v₂ = v₀ ∨ v₀ = .fnConst v₂ := by
  cases v₀ with
  | fnConst r =>
      right
      cases hcur : luaIndex ptr k with
      | error e =>
          rw [resolveCand] at hres
          simp [Val.isFn, hcur, except_error_bind] at hres
      | ok cur =>
          rw [resolveCand] at hres
          simp [Val.isFn, hcur, except_ok_bind, callFn, mwLookup, pure,
            Except.pure] at hres
          subst hres
          rfl
  | fnAdd n =>
      exfalso
      cases hcur : luaIndex ptr k with
      | error e =>
          rw [resolveCand] at hres
          simp [Val.isFn, hcur, except_error_bind] at hres
      | ok cur =>
          rw [resolveCand] at hres
          cases cur <;>
            simp [Val.isFn, hcur, except_ok_bind, except_error_bind, callFn,
              mwLookup, pure, Except.pure] at hres <;>
            (subst hres; exact Option.noConfusion hobj)
  | nilv =>
      left
      rw [resolveCand] at hres
      simp [Val.isFn, mwLookup, pure, Except.pure, except_pure_bind,
        except_ok_bind] at hres
      subst hres
      rfl
  | boolv b =>
      left
      rw [resolveCand] at hres
      simp [Val.isFn, mwLookup, pure, Except.pure, except_pure_bind,
        except_ok_bind] at hres
      subst hres
      rfl
  | num n =>
      left
      rw [resolveCand] at hres
      simp [Val.isFn, mwLookup, pure, Except.pure, except_pure_bind,
        except_ok_bind] at hres
      subst hres
      rfl
  | strv s =>
      left
      rw [resolveCand] at hres
      simp [Val.isFn, mwLookup, pure, Except.pure, except_pure_bind,
        except_ok_bind] at hres
      subst hres
      rfl
  | arr xs =>
      left
      rw [resolveCand] at hres
      simp [Val.isFn, mwLookup, pure, Except.pure, except_pure_bind,
        except_ok_bind] at hres
      subst hres
      rfl
  | obj l =>
      left
      rw [resolveCand] at hres
      simp [Val.isFn, mwLookup, pure, Except.pure, except_pure_bind,
        except_ok_bind] at hres
      subst hres
      rfl

theorem lookupP_of_not_any (k : String) :
    ∀ (l : List (String × Val)), (l.any fun p => p.1 == k) = false →
      lookupP l k = none := by
  intro l
  induction l with
  | nil => intro _; rfl
  | cons p rest ih =>
      intro h
      simp only [List.any_cons, Bool.or_eq_false_iff, beq_eq_false_iff_ne]
        at h
      rw [lookupP, if_neg h.1]
      exact ih (by simpa using h.2)

/-- Decomposing payload well-formedness at a cons level. -/
theorem pWF_cons (k : String) (v : Val) (rest : List (String × Val))
    (h : pWF (.obj ((k, v) :: rest)) = true) :
    pWF v = true ∧ pWF (.obj rest) = true ∧ lookupP rest k = none := by
  rw [pWF] at h
  simp only [Bool.and_eq_true] at h
  obtain ⟨hnd, hlist⟩ := h
  rw [nodupKeys] at hnd
  simp only [Bool.and_eq_true, Bool.not_eq_true'] at hnd
  rw [pWFList] at hlist
  simp only [Bool.and_eq_true] at hlist
  refine ⟨hlist.1, ?_, lookupP_of_not_any k rest hnd.1⟩
  rw [pWF]
  simp only [Bool.and_eq_true]
  exact ⟨hnd.2, hlist.2⟩

theorem pWF_fields_of_resolve (top ptr : Val) (k : String) (v₀ v₂ : Val)
    (fields : List (String × Val))
    (hres : resolveCand [] top ptr k v₀ = .ok v₂)
    (hobj : v₂.objNE = some fields) (hwf : pWF v₀ = true) :
    pWF (.obj fields) = true := by
  have hv₂ : v₂ = .obj fields := objNE_some_val v₂ fields hobj
  rcases resolve_nil_objNE top ptr k v₀ v₂ fields hres hobj with hv | hv
  · rw [← hv₂, hv]; exact hwf
  · rw [hv] at hwf
    rw [pWF] at hwf
    rw [← hv₂]
    exact hwf

theorem getPath_append (π₁ : List String) :
    ∀ (v : Val) (π₂ : List String),
      getPath v (π₁ ++ π₂) = (getPath v π₁).bind fun w => getPath w π₂ := by
  induction π₁ with
  | nil => intro v π₂; cases v <;> rfl
  | cons k π ih =>
      intro v π₂
      cases v with
      | obj l =>
          rw [List.cons_append, getPath, getPath]
          cases lookupP l k with
          | none => rfl
          | some w => exact ih w π₂
      | nilv => rfl
      | boolv b => rfl
      | num n => rfl
      | strv s => rfl
      | fnConst r => rfl
      | fnAdd n => rfl
      | arr xs => rfl

/-- Every value has a non-nested-mapping descendant along some key path;
for a nonempty mapping the path is nonempty. -/
theorem exists_leaf_path :
    ∀ (n : Nat) (v : Val), sizeOf v ≤ n →
      ∃ πe w, getPath v πe = some w ∧ w.isNEObj = false ∧
        (v.isNEObj = true → πe ≠ []) := by
  intro n
  induction n with
  | zero =>
      intro v hv
      exfalso
      cases v <;> simp at hv
  | succ n ih =>
      intro v hv
      cases v with
      | obj l =>
          cases l with
          | nil => exact ⟨[], .obj [], rfl, rfl, fun h => nomatch h⟩
          | cons p es =>
              obtain ⟨k, v₁⟩ := p
              have hsz : sizeOf v₁ ≤ n := by
                simp only [Val.obj.sizeOf_spec, List.cons.sizeOf_spec,
                  Prod.mk.sizeOf_spec] at hv
                omega
              obtain ⟨πe, w, hget, hw, _⟩ := ih v₁ hsz
              refine ⟨k :: πe, w, ?_, hw, by simp⟩
              rw [getPath, lookupP_cons_self]
              exact hget
      | nilv => exact ⟨[], .nilv, rfl, rfl, fun h => nomatch h⟩
      | boolv b => exact ⟨[], .boolv b, rfl, rfl, fun h => nomatch h⟩
      | num m => exact ⟨[], .num m, rfl, rfl, fun h => nomatch h⟩
      | strv s => exact ⟨[], .strv s, rfl, rfl, fun h => nomatch h⟩
      | fnConst r => exact ⟨[], .fnConst r, rfl, rfl, fun h => nomatch h⟩
      | fnAdd m => exact ⟨[], .fnAdd m, rfl, rfl, fun h => nomatch h⟩
      | arr xs => exact ⟨[], .arr xs, rfl, rfl, fun h => nomatch h⟩

theorem leafSpec_nil_payload (ptr : Val) (π : List String) :
    leafSpec ptr [] π = none := by
  cases π <;> rfl

theorem leafSpec_cons_ne (cur : Val) (k₁ k : String) (v₀ : Val)
    (rest : List (String × Val)) (π : List String) (h : k₁ ≠ k) :
    leafSpec cur ((k₁, v₀) :: rest) (k :: π) = leafSpec cur rest (k :: π) := by
  rw [leafSpec, leafSpec, lookupP_cons_ne _ _ _ _ h]

theorem getPath_not_NEObj (v : Val) (h : v.objNE = none) (k : String)
    (π : List String) : getPath v (k :: π) = none := by
  cases v with
  | obj l =>
      cases l with
      | nil => rfl
      | cons f fs => exact Option.noConfusion h
  | nilv => rfl
  | boolv b => rfl
  | num n => rfl
  | strv s => rfl
  | fnConst r => rfl
  | fnAdd n => rfl
  | arr xs => rfl

theorem getPath_nil (v : Val) : getPath v [] = some v := by
  cases v <;> rfl

/-- The central diff characterization: a middleware-free `apply` pass emits
a non-nested-mapping diff entry `v` at (nonempty) path `π` exactly when the
path-directed rule `leafSpec` says so. -/
theorem apply_leaf_spec (top : Val) :
    ∀ (fuel : Nat) (ptr : Val) (l d : List (String × Val)) (ch : Bool),
      pWF (.obj l) = true →
      apply [] top fuel ptr l = .ok (d, ch) →
      ∀ (π : List String) (v : Val),
        (getPath (.obj d) π = some v ∧ v.isNEObj = false ∧ π ≠ []) ↔
          leafSpec ptr l π = some v := by
  intro fuel
  induction fuel with
  | zero =>
      intro ptr l d ch hwf h π v
      cases l with
      | nil =>
          rw [apply_nil] at h
          simp only [Except.ok.injEq, Prod.mk.injEq] at h
          rw [← h.1, leafSpec_nil_payload]
          constructor
          · rintro ⟨hg, _, hπ⟩
            cases π with
            | nil => exact absurd rfl hπ
            | cons k π₂ => exact Option.noConfusion hg
          · intro hg; exact Option.noConfusion hg
      | cons p rest => exact Except.noConfusion h
  | succ fuel ih =>
      intro ptr l d ch hwf h π v
      cases l with
      | nil =>
          rw [apply_nil] at h
          simp only [Except.ok.injEq, Prod.mk.injEq] at h
          rw [← h.1, leafSpec_nil_payload]
          constructor
          · rintro ⟨hg, _, hπ⟩
            cases π with
            | nil => exact absurd rfl hπ
            | cons k π₂ => exact Option.noConfusion hg
          · intro hg; exact Option.noConfusion hg
      | cons p rest =>
          obtain ⟨k₁, v₀⟩ := p
          obtain ⟨hwf₀, hwfr, hnk⟩ := pWF_cons k₁ v₀ rest hwf
          obtain ⟨v₂, hres, hcase⟩ := apply_cons_inv [] top fuel ptr k₁ v₀
            rest d ch h
          cases π with
          | nil =>
              constructor
              · rintro ⟨_, _, hπ⟩; exact absurd rfl hπ
              · intro hg
                rw [leafSpec] at hg
                exact Option.noConfusion hg
          | cons k π₃ =>
              by_cases hk : k₁ = k
              · subst hk
                rcases hcase with
                  ⟨fields, sub, sd, sc, rd, rc, hobj, hsub, hsc, hrc, hd, _⟩ |
                  ⟨hobj, htab, cur, rd, rc, hcur, hrc, hsplit⟩ |
                  ⟨hobj, htab, cur, rd, rc, hcur, hrc, hsplit⟩
                · -- object branch
                  subst hd
                  have hwff : pWF (.obj fields) = true :=
                    pWF_fields_of_resolve top ptr k₁ v₀ v₂ fields hres hobj
                      hwf₀
                  cases π₃ with
                  | nil =>
                      have hrhs : leafSpec ptr ((k₁, v₀) :: rest) [k₁]
                          = none := by
                        simp only [leafSpec, lookupP_cons_self,
                          resolveCand_top_irrelevant ptr top ptr k₁ v₀, hres,
                          hobj]
                      rw [hrhs]
                      constructor
                      · rintro ⟨hg, hne, _⟩
                        cases hscb : sc with
                        | true =>
                            rw [hscb] at hg hsc
                            have hgp : getPath
                                (.obj ((if true then [(k₁, Val.obj sd)]
                                  else []) ++ rd)) [k₁]
                                = some (Val.obj sd) := by
                              rw [getPath]
                              simp [lookupP_cons_self, getPath]
                            rw [hgp] at hg
                            injection hg with hg
                            have hsd : sd ≠ [] :=
                              (apply_changed_iff [] top fuel sub fields sd
                                true hsc).mp rfl
                            cases sd with
                            | nil => exact absurd rfl hsd
                            | cons e es =>
                                rw [← hg] at hne
                                exact Bool.noConfusion hne
                        | false =>
                            rw [hscb] at hg hsc
                            have hlook : lookupP
                                ((if false then [(k₁, Val.obj sd)] else [])
                                  ++ rd) k₁ = none := by
                              simp only [Bool.false_eq_true, if_false,
                                List.nil_append]
                              exact apply_keys [] top fuel ptr rest rd rc k₁
                                hrc hnk
                            have hgp : getPath
                                (.obj ((if false then [(k₁, Val.obj sd)]
                                  else []) ++ rd)) [k₁] = none := by
                              rw [getPath, hlook]
                            rw [hgp] at hg
                            exact Option.noConfusion hg
                      · intro hg; exact Option.noConfusion hg
                  | cons k₂ π₂ =>
                      have hrhs : leafSpec ptr ((k₁, v₀) :: rest)
                          (k₁ :: k₂ :: π₂) = leafSpec sub fields (k₂ :: π₂)
                          := by
                        simp only [leafSpec, lookupP_cons_self,
                          resolveCand_top_irrelevant ptr top ptr k₁ v₀, hres,
                          hobj, hsub, Except.toOption, Option.getD_some]
                      rw [hrhs]
                      cases hscb : sc with
                      | true =>
                          rw [hscb] at hsc
                          have hiff := ih sub fields sd true hwff hsc
                            (k₂ :: π₂) v
                          have hgp : getPath
                              (.obj ((if true then [(k₁, Val.obj sd)]
                               else []) ++ rd)) (k₁ :: k₂ :: π₂)
                              = getPath (.obj sd) (k₂ :: π₂) := by
                            rw [getPath]
                            simp [lookupP_cons_self, getPath]
                          rw [hgp]
                          constructor
                          · rintro ⟨hg, hne, _⟩
                            exact hiff.mp ⟨hg, hne, by simp⟩
                          · intro hg
                            obtain ⟨hg₂, hne, _⟩ := hiff.mpr hg
                            exact ⟨hg₂, hne, by simp⟩
                      | false =>
                          rw [hscb] at hsc
                          have hsd : sd = [] := by
                            have hciff := apply_changed_iff [] top fuel sub
                              fields sd false hsc
                            by_cases hh : sd = []
                            · exact hh
                            · exact absurd (hciff.mpr hh) (by simp)
                          subst hsd
                          have hiff := ih sub fields [] false hwff hsc
                            (k₂ :: π₂) v
                          have hlook : lookupP
                              ((if false then [(k₁, Val.obj [])] else [])
                                ++ rd) k₁ = none := by
                            simp only [Bool.false_eq_true, if_false,
                              List.nil_append]
                            exact apply_keys [] top fuel ptr rest rd rc k₁
                              hrc hnk
                          have hgp : getPath
                              (.obj ((if false then [(k₁, Val.obj [])]
                               else []) ++ rd)) (k₁ :: k₂ :: π₂) = none := by
                            rw [getPath, hlook]
                          rw [hgp]
                          constructor
                          · rintro ⟨hg, _, _⟩; exact Option.noConfusion hg
                          · intro hg
                            obtain ⟨hg₂, _, _⟩ := hiff.mpr hg
                            have hgnil : getPath (Val.obj []) (k₂ :: π₂)
                                = none := by
                              rw [getPath_not_NEObj]
                              rfl
                            rw [hgnil] at hg₂
                            exact Option.noConfusion hg₂
                · -- array branch
                  rcases hsplit with ⟨heq, hd, _⟩ | ⟨heq, hd, _⟩ <;> subst hd
                  · -- arrays equal: nothing emitted
                    have hrhs : leafSpec ptr ((k₁, v₀) :: rest) (k₁ :: π₃)
                        = none := by
                      cases π₃ <;>
                        simp only [leafSpec, lookupP_cons_self,
                          resolveCand_top_irrelevant ptr top ptr k₁ v₀, hres,
                          hobj, hcur, htab, heq, Except.toOption,
                          Option.getD_some, if_true]
                    rw [hrhs]
                    have hlook : lookupP d k₁ = none :=
                      apply_keys [] top fuel ptr rest d _ k₁ hrc hnk
                    have hgp : getPath (.obj d) (k₁ :: π₃) = none := by
                      rw [getPath, hlook]
                    rw [hgp]
                    constructor
                    · rintro ⟨hg, _, _⟩; exact Option.noConfusion hg
                    · intro hg; exact Option.noConfusion hg
                  · -- arrays unequal: wholesale emission
                    cases π₃ with
                    | nil =>
                        have hrhs : leafSpec ptr ((k₁, v₀) :: rest) [k₁]
                            = some v₂ := by
                          simp only [leafSpec, lookupP_cons_self,
                            resolveCand_top_irrelevant ptr top ptr k₁ v₀,
                            hres, hobj, hcur, htab, heq, Except.toOption,
                            Option.getD_some, if_true, Bool.false_eq_true,
                            if_false]
                        rw [hrhs]
                        have hgp : getPath (.obj ((k₁, v₂) :: rd)) [k₁]
                            = some v₂ := by
                          rw [getPath, lookupP_cons_self]
                          exact getPath_nil v₂
                        rw [hgp]
                        constructor
                        · rintro ⟨hg, _, _⟩; exact hg
                        · intro hg
                          injection hg with hg
                          refine ⟨by rw [hg], ?_, by simp⟩
                          rw [← hg]
                          exact objNE_none_isNEObj v₂ hobj
                    | cons k₂ π₂ =>
                        have hrhs : leafSpec ptr ((k₁, v₀) :: rest)
                            (k₁ :: k₂ :: π₂) = none := by
                          simp only [leafSpec, lookupP_cons_self,
                            resolveCand_top_irrelevant ptr top ptr k₁ v₀,
                            hres, hobj]
                        rw [hrhs]
                        have hgp : getPath (.obj ((k₁, v₂) :: rd))
                            (k₁ :: k₂ :: π₂) = getPath v₂ (k₂ :: π₂) := by
                          rw [getPath, lookupP_cons_self]
                        rw [hgp, getPath_not_NEObj v₂ hobj k₂ π₂]
                        constructor
                        · rintro ⟨hg, _, _⟩; exact Option.noConfusion hg
                        · intro hg; exact Option.noConfusion hg
                · -- primitive branch
                  have htf : v₂.isTable = false := by simpa using htab
                  rcases hsplit with ⟨heq, hd, _⟩ | ⟨heq, hd, _⟩ <;> subst hd
                  · have hrhs : leafSpec ptr ((k₁, v₀) :: rest) (k₁ :: π₃)
                        = none := by
                      cases π₃ <;>
                        simp only [leafSpec, lookupP_cons_self,
                          resolveCand_top_irrelevant ptr top ptr k₁ v₀, hres,
                          hobj, hcur, htf, heq, Except.toOption,
                          Option.getD_some, if_true, Bool.false_eq_true,
                          if_false]
                    rw [hrhs]
                    have hlook : lookupP d k₁ = none :=
                      apply_keys [] top fuel ptr rest d _ k₁ hrc hnk
                    have hgp : getPath (.obj d) (k₁ :: π₃) = none := by
                      rw [getPath, hlook]
                    rw [hgp]
                    constructor
                    · rintro ⟨hg, _, _⟩; exact Option.noConfusion hg
                    · intro hg; exact Option.noConfusion hg
                  · cases π₃ with
                    | nil =>
                        have hrhs : leafSpec ptr ((k₁, v₀) :: rest) [k₁]
                            = some v₂ := by
                          simp only [leafSpec, lookupP_cons_self,
                            resolveCand_top_irrelevant ptr top ptr k₁ v₀,
                            hres, hobj, hcur, htf, heq, Except.toOption,
                            Option.getD_some, Bool.false_eq_true, if_false]
                        rw [hrhs]
                        have hgp : getPath (.obj ((k₁, v₂) :: rd)) [k₁]
                            = some v₂ := by
                          rw [getPath, lookupP_cons_self]
                          exact getPath_nil v₂
                        rw [hgp]
                        constructor
                        · rintro ⟨hg, _, _⟩; exact hg
                        · intro hg
                          injection hg with hg
                          refine ⟨by rw [hg], ?_, by simp⟩
                          rw [← hg]
                          exact objNE_none_isNEObj v₂ hobj
                    | cons k₂ π₂ =>
                        have hrhs : leafSpec ptr ((k₁, v₀) :: rest)
                            (k₁ :: k₂ :: π₂) = none := by
                          simp only [leafSpec, lookupP_cons_self,
                            resolveCand_top_irrelevant ptr top ptr k₁ v₀,
                            hres, hobj]
                        rw [hrhs]
                        have hgp : getPath (.obj ((k₁, v₂) :: rd))
                            (k₁ :: k₂ :: π₂) = getPath v₂ (k₂ :: π₂) := by
                          rw [getPath, lookupP_cons_self]
                        rw [hgp, getPath_not_NEObj v₂ hobj k₂ π₂]
                        constructor
                        · rintro ⟨hg, _, _⟩; exact Option.noConfusion hg
                        · intro hg; exact Option.noConfusion hg
              · -- key differs from the head entry: defer to the tail
                rw [leafSpec_cons_ne ptr k₁ k v₀ rest π₃ hk]
                rcases hcase with
                  ⟨fields, sub, sd, sc, rd, rc, hobj, hsub, hsc, hrc, hd, _⟩ |
                  ⟨hobj, htab, cur, rd, rc, hcur, hrc, hsplit⟩ |
                  ⟨hobj, htab, cur, rd, rc, hcur, hrc, hsplit⟩
                · subst hd
                  have hgp : getPath
                      (.obj ((if sc then [(k₁, Val.obj sd)] else []) ++ rd))
                      (k :: π₃) = getPath (.obj rd) (k :: π₃) := by
                    rw [getPath, lookupP_ite_head sc k₁ k (Val.obj sd) rd hk,
                      getPath]
                  rw [hgp]
                  exact ih ptr rest rd rc hwfr hrc (k :: π₃) v
                · rcases hsplit with ⟨heq, hd, _⟩ | ⟨heq, hd, _⟩ <;> subst hd
                  · exact ih ptr rest _ _ hwfr hrc (k :: π₃) v
                  · have hgp : getPath (.obj ((k₁, v₂) :: rd)) (k :: π₃)
                        = getPath (.obj rd) (k :: π₃) := by
                      rw [getPath, lookupP_cons_ne k₁ k v₂ rd hk, getPath]
                    rw [hgp]
                    exact ih ptr rest rd _ hwfr hrc (k :: π₃) v
                · rcases hsplit with ⟨heq, hd, _⟩ | ⟨heq, hd, _⟩ <;> subst hd
                  · exact ih ptr rest _ _ hwfr hrc (k :: π₃) v
                  · have hgp : getPath (.obj ((k₁, v₂) :: rd)) (k :: π₃)
                        = getPath (.obj rd) (k :: π₃) := by
                      rw [getPath, lookupP_cons_ne k₁ k v₂ rd hk, getPath]
                    rw [hgp]
                    exact ih ptr rest rd _ hwfr hrc (k :: π₃) v

/-! ## Claim C1: counterexample -/

/-- C1: counterexample to the stated diff rule, in both directions, at
concrete inputs.
First, with state `{a: 5}` and payload `{a: (v) => 5}` the transformer
returns the primitive `5`, equal to the pre-update value; the claimed rule
("an entry iff the value differs, except transformer-returned *nested
structures* and shape transitions") predicts no entry, but the pass emits
`{a: 5}` and reports a change — the comparison `pointer[key] !== obj[key]`
runs against the transformer function itself, so a transformer-returned
primitive is emitted unconditionally.
Second, with state `{a: {b: 1}}` and payload `{a: (v) => ({b: 1})}` the
transformer returns a nested structure, which the claim says is always
emitted; the pass instead recurses into it, finds nothing changed, prunes
the entry and reports no change. -/
theorem c1_counterexample :
    applyTop 10 [] (.obj [("a", .num 5)]) [("a", .fnConst (.num 5))]
      = .ok ([("a", .num 5)], true) ∧
    getPath (.obj [("a", .num 5)]) ["a"] = some (.num 5) ∧
    shallowMerge (.obj [("a", .num 5)]) [("a", .num 5)]
      = .obj [("a", .num 5)] ∧
    applyTop 10 [] (.obj [("a", .obj [("b", .num 1)])])
        [("a", .fnConst (.obj [("b", .num 1)]))]
      = .ok ([], false) :=
  ⟨rfl, rfl, rfl, rfl⟩

/-- C1 (amended): full characterization of one diff pass over a
duplicate-free payload.  (i) The reported `changed` flag holds exactly when
the diff is nonempty.  (ii) A non-nested-mapping value sits at a (nonempty)
path of the diff exactly when the path-directed rule `leafSpec` emits it
there: descending through nonempty-mapping candidates, an array candidate is
emitted iff shallow sequence equality with the current value fails, and any
other candidate — including every transformer-returned primitive — is
emitted iff `pointer[key] !== obj[key]` where `obj[key]` is the *original*
payload entry (so a transformer-returned primitive is always emitted, and a
transformer-returned nested mapping is recursed into, not force-emitted).
(iii) Every internal node of the diff tree extends to such an emitted leaf,
so the leaves determine the diff's reachable content. -/
theorem c1_diff_characterization (fuel : Nat) (st : Val)
    (p d : List (String × Val)) (ch : Bool)
    (hwf : pWF (.obj p) = true)
    (h : applyTop fuel [] st p = .ok (d, ch)) :
    (ch = true ↔ d ≠ []) ∧
    (∀ (π : List String) (v : Val),
      (getPath (.obj d) π = some v ∧ v.isNEObj = false ∧ π ≠ []) ↔
        leafSpec st p π = some v) ∧
    (∀ (π : List String) (v : Val), π ≠ [] →
      getPath (.obj d) π = some v →
      ∃ (πe : List String) (w : Val),
        leafSpec st p (π ++ πe) = some w ∧ w.isNEObj = false) := by
  rw [applyTop] at h
  refine ⟨apply_changed_iff [] st fuel st p d ch h,
    apply_leaf_spec st fuel st p d ch hwf h, ?_⟩
  intro π v hπ hg
  obtain ⟨πe, w, hgw, hw, _⟩ := exists_leaf_path (sizeOf v) v le_rfl
  refine ⟨πe, w, ?_, hw⟩
  have hall : getPath (Val.obj d) (π ++ πe) = some w := by
    rw [getPath_append, hg]
    exact hgw
  have hne : π ++ πe ≠ [] := by
    cases π with
    | nil => exact absurd rfl hπ
    | cons a b => simp
  exact (apply_leaf_spec st fuel st p d ch hwf h (π ++ πe) w).mp ⟨hall, hw, hne⟩

/-- C1 (amended) witness: state `{a: 5}`, payload `{a: 7}` — the pass
emits `{a: 7}` and reports a change. -/
theorem c1_diff_characterization_witness :
    pWF (.obj [("a", Val.num 7)]) = true ∧
    applyTop 2 [] (.obj [("a", Val.num 5)]) [("a", Val.num 7)]
      = .ok ([("a", Val.num 7)], true) ∧
    ((true = true ↔ ([("a", Val.num 7)] : List (String × Val)) ≠ []) ∧
     (∀ (π : List String) (v : Val),
       (getPath (.obj [("a", Val.num 7)]) π = some v ∧
           v.isNEObj = false ∧ π ≠ []) ↔
         leafSpec (.obj [("a", Val.num 5)]) [("a", Val.num 7)] π = some v) ∧
     (∀ (π : List String) (v : Val), π ≠ [] →
       getPath (.obj [("a", Val.num 7)]) π = some v →
       ∃ (πe : List String) (w : Val),
         leafSpec (.obj [("a", Val.num 5)]) [("a", Val.num 7)] (π ++ πe)
             = some w ∧
           w.isNEObj = false)) :=
  ⟨by simp [pWF, pWFList, nodupKeys], rfl,
   c1_diff_characterization 2 (.obj [("a", Val.num 5)]) [("a", Val.num 7)]
     [("a", Val.num 7)] true (by simp [pWF, pWFList, nodupKeys]) rfl⟩

/-! ## Claim C3: counterexample -/

/-- C3: counterexample.  A selector on `x` is registered over initial state
`{x: 0}`; `update({x:1})` and then `update({})` are submitted while the
queue has not yet run (each call snapshots the selectors at submission
time), then the two tasks run.  The second update's diff pass reports no
change and the diff channel is fired only once — but the second, no-change
update still re-evaluates the selector against `{x: 1}`, compares it with
its stale submission-time snapshot `0`, and fires the listener a second
time: a no-change update is not a silent no-op. -/
theorem c3_counterexample :
    (runActs 10 (initCrate (.obj [("x", .num 0)]))
        [.onUpd ["x"], .upd [("x", .num 1)], .upd [], .runNext, .runNext]).diffLog
      = [[("x", .num 1)]] ∧
    (runActs 10 (initCrate (.obj [("x", .num 0)]))
        [.onUpd ["x"], .upd [("x", .num 1)], .upd [], .runNext, .runNext]).fireLog
      = [(0, .num 1), (0, .num 1)] ∧
    (runActs 10 (initCrate (.obj [("x", .num 0)]))
        [.onUpd ["x"], .upd [("x", .num 1)], .upd [], .runNext]).fireLog
      = [(0, .num 1)] ∧
    applyTop 10 [] (.obj [("x", .num 1)]) [] = .ok ([], false) :=
  ⟨rfl, rfl, rfl, rfl⟩

/-! ## Claim C4: counterexample -/

/-- C4: counterexample.  The selector snapshot is taken when `update()` is
*called*, not when its task is dequeued.  With initial state `{x: 0}` and a
selector on `x`, `update({x:1})` and `update({x:1})` are submitted
back-to-back (both snapshot `0`), then run.  When the second task is
dequeued the pre-change state is already `{x: 1}` and its re-evaluated
result is `1`; under the claimed dequeue-time snapshot the listener must
not fire for that cycle, but the code compares against the submission-time
snapshot `0` and fires a second time. -/
theorem c4_counterexample :
    (runActs 10 (initCrate (.obj [("x", .num 0)]))
        [.onUpd ["x"], .upd [("x", .num 1)], .upd [("x", .num 1)], .runNext]).state
      = .obj [("x", .num 1)] ∧
    (runActs 10 (initCrate (.obj [("x", .num 0)]))
        [.onUpd ["x"], .upd [("x", .num 1)], .upd [("x", .num 1)],
          .runNext, .runNext]).fireLog
      = [(0, .num 1), (0, .num 1)] ∧
    (runActs 10 (initCrate (.obj [("x", .num 0)]))
        [.onUpd ["x"], .upd [("x", .num 1)], .upd [("x", .num 1)],
          .runNext, .runNext]).diffLog
      = [[("x", .num 1)]] :=
  ⟨rfl, rfl, rfl⟩

/-! ## Claim C8: counterexample -/

/-- C8: counterexample.  Selector evaluation during the notification loop is
*not* wrapped in any error handler.  State `{a: {b: 1}, x: 0}`, selectors
`s.a.b` and `s.x`, one `update({a: 5, x: 1})`.  The update commits and the
diff fires, but re-evaluating the first selector raises (indexing the
number `5` with `b`), which rejects the update task's own completion handle
and aborts the loop: the second selector — whose observed value `x` did
change — never fires, and the cycle does not complete cleanly.  Nothing is
treated as "selector result unchanged". -/
theorem c8_counterexample :
    (runActs 10 (initCrate (.obj [("a", .obj [("b", .num 1)]), ("x", .num 0)]))
        [.onUpd ["a", "b"], .onUpd ["x"],
          .upd [("a", .num 5), ("x", .num 1)], .runNext]).taskLog
      = [.error ()] ∧
    (runActs 10 (initCrate (.obj [("a", .obj [("b", .num 1)]), ("x", .num 0)]))
        [.onUpd ["a", "b"], .onUpd ["x"],
          .upd [("a", .num 5), ("x", .num 1)], .runNext]).fireLog
      = [] ∧
    (runActs 10 (initCrate (.obj [("a", .obj [("b", .num 1)]), ("x", .num 0)]))
        [.onUpd ["a", "b"], .onUpd ["x"],
          .upd [("a", .num 5), ("x", .num 1)], .runNext]).diffLog
      = [[("a", .num 5), ("x", .num 1)]] ∧
    (runActs 10 (initCrate (.obj [("a", .obj [("b", .num 1)]), ("x", .num 0)]))
        [.onUpd ["a", "b"], .onUpd ["x"],
          .upd [("a", .num 5), ("x", .num 1)], .runNext]).state
      = .obj [("a", .num 5), ("x", .num 1)] ∧
    evalSel ["a", "b"] (.obj [("a", .num 5), ("x", .num 1)]) = .error () :=
  ⟨rfl, rfl, rfl, rfl, rfl⟩

/-! ## Claim C9: counterexample -/

/-- C9: counterexample.  Only an undefined *pre-update* snapshot is skipped
(`fetch === undefined → continue`); an undefined post-update result is not.
State `{a: {b: 1}}`, selector `s.a.b` (snapshot `1`), one
`update({a: [1]})` replacing the mapping with an array.  Re-evaluation
yields `nil` (indexing the array with `b`), and instead of being skipped
the listener fires with `nil`. -/
theorem c9_counterexample :
    snapshotSels [["a", "b"]] (.obj [("a", .obj [("b", .num 1)])])
      = .ok [some (.num 1)] ∧
    (runActs 10 (initCrate (.obj [("a", .obj [("b", .num 1)])]))
        [.onUpd ["a", "b"], .upd [("a", .arr [.num 1])], .runNext]).fireLog
      = [(0, .nilv)] ∧
    (runActs 10 (initCrate (.obj [("a", .obj [("b", .num 1)])]))
        [.onUpd ["a", "b"], .upd [("a", .arr [.num 1])], .runNext]).taskLog
      = [.ok ()] ∧
    evalSel ["a", "b"] (.obj [("a", .arr [.num 1])]) = .ok .nilv :=
  ⟨rfl, rfl, rfl, rfl⟩

/-! ## Notification-loop lemmas -/

theorem scalarEq_self (v : Val) (h : v.isScalar = true) :
    scalarEq v v = true := by
  cases v <;> simp_all [Val.isScalar, Val.isTable, Val.isFn, scalarEq]

theorem selectorChanged_self (v : Val) (h : v.isScalar = true) :
    selectorChanged v v = false := by
  have ht : v.isTable = false := by
    cases v <;> simp_all [Val.isScalar, Val.isTable, Val.isFn]
  have ha : v.isLuaArray = false := by
    cases v <;> simp_all [Val.isTable, Val.isLuaArray]
  simp [selectorChanged, ht, ha, scalarEq_self v h]

/-- Nothing fires and no error occurs when every selector whose snapshot is
defined re-evaluates to exactly its (scalar) snapshot. -/
theorem notify_no_fires (st : Val) (snaps : List (Option Val)) :
    ∀ (sels : List Sel) (base : Nat),
      (∀ j f, snaps.getD (base + j) none = some f →
        ∃ s, sels.get? j = some s ∧ evalSel s st = .ok f ∧ f.isScalar = true) →
      notifySelectors st snaps base sels = ([], .ok ()) := by
  intro sels
  induction sels with
  | nil => intro base _; rfl
  | cons s rest ih =>
      intro base hsnap
      have hrest : notifySelectors st snaps (base + 1) rest = ([], .ok ()) := by
        apply ih
        intro j f hf
        have hf₂ : snaps.getD (base + (j + 1)) none = some f := by
          have : base + 1 + j = base + (j + 1) := by omega
          rw [← this]; exact hf
        obtain ⟨s₂, hget, he, hsc⟩ := hsnap (j + 1) f hf₂
        exact ⟨s₂, hget, he, hsc⟩
      rw [notifySelectors]
      cases hb : snaps.getD base none with
      | none => exact hrest
      | some fetch =>
          obtain ⟨s₂, hget, he, hsc⟩ := hsnap 0 fetch (by simpa using hb)
          have hs₂ : s = s₂ := by simpa using hget
          subst hs₂
          rw [he, hrest]
          simp [selectorChanged_self fetch hsc]

/-! ## Reference-level selector lemmas -/

theorem rLookupNode_append_one (h : RHeap) (r₂ : Ref) (n : RNode) (r : Ref)
    (hne : r ≠ r₂) :
    rLookupNode (h ++ [(r₂, n)]) r = rLookupNode h r := by
  induction h with
  | nil =>
      have : r₂ ≠ r := fun hx => hne hx.symm
      simp [rLookupNode, this]
  | cons p rest ih =>
      obtain ⟨r₁, n₁⟩ := p
      rw [List.cons_append, rLookupNode, rLookupNode]
      by_cases h₁ : r₁ = r
      · rw [if_pos h₁, if_pos h₁]
      · rw [if_neg h₁, if_neg h₁, ih]

theorem rLookupNode_append_self (h : RHeap) (r₂ : Ref) (n : RNode)
    (hnone : rLookupNode h r₂ = none) :
    rLookupNode (h ++ [(r₂, n)]) r₂ = some n := by
  induction h with
  | nil => simp [rLookupNode]
  | cons p rest ih =>
      obtain ⟨r₁, n₁⟩ := p
      rw [rLookupNode] at hnone
      rw [List.cons_append, rLookupNode]
      by_cases h₁ : r₁ = r₂
      · rw [if_pos h₁] at hnone; exact Option.noConfusion hnone
      · rw [if_neg h₁] at hnone
        rw [if_neg h₁]
        exact ih hnone

theorem rLookupNode_append_of_some (h l : RHeap) (r : Ref) (n : RNode)
    (hn : rLookupNode h r = some n) : rLookupNode (h ++ l) r = some n := by
  induction h with
  | nil => exact Option.noConfusion hn
  | cons p rest ih =>
      obtain ⟨r₁, n₁⟩ := p
      rw [rLookupNode] at hn
      rw [List.cons_append, rLookupNode]
      by_cases h₁ : r₁ = r
      · rw [if_pos h₁] at hn; rw [if_pos h₁]; exact hn
      · rw [if_neg h₁] at hn; rw [if_neg h₁]; exact ih hn

theorem rLookupNode_mem (h : RHeap) (r : Ref) (n : RNode)
    (hn : rLookupNode h r = some n) : (r, n) ∈ h := by
  induction h with
  | nil => exact Option.noConfusion hn
  | cons p rest ih =>
      obtain ⟨r₁, n₁⟩ := p
      rw [rLookupNode] at hn
      by_cases h₁ : r₁ = r
      · rw [if_pos h₁] at hn
        injection hn with h₂
        subst h₂
        subst h₁
        exact List.mem_cons_self _ _
      · rw [if_neg h₁] at hn
        exact List.mem_cons_of_mem _ (ih hn)

theorem rFresh_lookup_none (r₂ : Ref) (h : RHeap)
    (hf : rFresh r₂ h = true) : rLookupNode h r₂ = none := by
  induction h with
  | nil => rfl
  | cons p rest ih =>
      obtain ⟨r₁, n₁⟩ := p
      rw [rFresh, List.all_cons] at hf
      simp only [Bool.and_eq_true, decide_eq_true_eq] at hf
      rw [rLookupNode, if_neg hf.1.1]
      exact ih (by rw [rFresh]; simpa using hf.2)

theorem rvAvoids_of_fresh (r₂ : Ref) (h : RHeap) (hf : rFresh r₂ h = true)
    (r : Ref) (n : RNode) (hn : rLookupNode h r = some n) :
    ∀ v ∈ rNodeVals n, rvAvoids r₂ v = true := by
  induction h with
  | nil => exact Option.noConfusion hn
  | cons p rest ih =>
      obtain ⟨r₁, n₁⟩ := p
      rw [rFresh, List.all_cons] at hf
      simp only [Bool.and_eq_true] at hf
      rw [rLookupNode] at hn
      by_cases h₁ : r₁ = r
      · rw [if_pos h₁] at hn
        injection hn with h₂
        subst h₂
        intro v hv
        have := hf.1.2
        rw [List.all_eq_true] at this
        exact this v hv
      · rw [if_neg h₁] at hn
        exact ih (by rw [rFresh]; simpa using hf.2) hn

theorem rLookup_mem (fs : List (String × RVal)) (k : String) (v : RVal)
    (h : rLookup fs k = some v) : v ∈ fs.map Prod.snd := by
  induction fs with
  | nil => exact Option.noConfusion h
  | cons p rest ih =>
      obtain ⟨k₁, v₁⟩ := p
      rw [rLookup] at h
      by_cases hk : k₁ = k
      · rw [if_pos hk] at h
        injection h with h₁
        subst h₁
        simp
      · rw [if_neg hk] at h
        simp [ih h]

theorem rIndex_append (h : RHeap) (r₂ : Ref) (n : RNode) (v : RVal)
    (hv : rvAvoids r₂ v = true) (k : String) :
    rIndex (h ++ [(r₂, n)]) v k = rIndex h v k := by
  cases v with
  | rref r =>
      have hne : r ≠ r₂ := by
        rw [rvAvoids] at hv
        exact of_decide_eq_true hv
      rw [rIndex, rIndex, rLookupNode_append_one h r₂ n r hne]
  | rnil => rfl
  | rbool b => rfl
  | rnum m => rfl
  | rstr s => rfl

theorem rIndex_avoids (h : RHeap) (r₂ : Ref) (hf : rFresh r₂ h = true)
    (v : RVal) (k : String) (w : RVal)
    (hw : rIndex h v k = .ok w) : rvAvoids r₂ w = true := by
  cases v with
  | rref r =>
      rw [rIndex] at hw
      cases hn : rLookupNode h r with
      | none =>
          rw [hn] at hw
          injection hw with h₁
          subst h₁
          rfl
      | some nd =>
          rw [hn] at hw
          cases nd with
          | rarr es =>
              injection hw with h₁
              subst h₁
              rfl
          | robj fs =>
              injection hw with h₁
              subst h₁
              cases hl : rLookup fs k with
              | none => rfl
              | some u =>
                  have hu : u ∈ rNodeVals (.robj fs) := by
                    rw [rNodeVals]
                    exact rLookup_mem fs k u hl
                  exact rvAvoids_of_fresh r₂ h hf r _ hn u hu
  | rnil => exact Except.noConfusion hw
  | rbool b => exact Except.noConfusion hw
  | rnum m => exact Except.noConfusion hw
  | rstr s =>
      injection hw with h₁
      subst h₁
      rfl

theorem evalSelR_append (h : RHeap) (r₂ : Ref) (n : RNode)
    (hf : rFresh r₂ h = true) :
    ∀ (ks : Sel) (v : RVal), rvAvoids r₂ v = true →
      evalSelR (h ++ [(r₂, n)]) ks v = evalSelR h ks v := by
  intro ks
  induction ks with
  | nil => intro v _; rfl
  | cons k ks ih =>
      intro v hv
      simp only [evalSelR]
      rw [rIndex_append h r₂ n v hv k]
      cases hw : rIndex h v k with
      | error e => rfl
      | ok w =>
          rw [except_ok_bind, except_ok_bind]
          exact ih w (rIndex_avoids h r₂ hf v k w hw)

theorem rWF_at (h : RHeap) (hwf : rWF h = true) (r : Ref) (n : RNode)
    (hn : rLookupNode h r = some n) :
    (∀ fs, n = .robj fs → nodupRKeys fs = true) ∧
    (∀ v ∈ rNodeVals n, rvInHeap h v = true) := by
  rw [rWF, List.all_eq_true] at hwf
  have := hwf (r, n) (rLookupNode_mem h r n hn)
  simp only [Bool.and_eq_true, List.all_eq_true] at this
  constructor
  · intro fs hfs
    subst hfs
    exact this.1
  · exact this.2

theorem rIndex_inHeap (h : RHeap) (hwf : rWF h = true) (v : RVal)
    (k : String) (w : RVal)
    (hw : rIndex h v k = .ok w) : rvInHeap h w = true := by
  cases v with
  | rref r =>
      rw [rIndex] at hw
      cases hn : rLookupNode h r with
      | none =>
          rw [hn] at hw
          injection hw with h₁
          subst h₁
          rfl
      | some nd =>
          rw [hn] at hw
          cases nd with
          | rarr es =>
              injection hw with h₁
              subst h₁
              rfl
          | robj fs =>
              injection hw with h₁
              subst h₁
              cases hl : rLookup fs k with
              | none => rfl
              | some u =>
                  have hu : u ∈ rNodeVals (.robj fs) := by
                    rw [rNodeVals]
                    exact rLookup_mem fs k u hl
                  exact (rWF_at h hwf r _ hn).2 u hu
  | rnil => exact Except.noConfusion hw
  | rbool b => exact Except.noConfusion hw
  | rnum m => exact Except.noConfusion hw
  | rstr s =>
      injection hw with h₁
      subst h₁
      rfl

theorem evalSelR_inHeap (h : RHeap) (hwf : rWF h = true) :
    ∀ (ks : Sel) (v : RVal), rvInHeap h v = true →
      ∀ w, evalSelR h ks v = .ok w → rvInHeap h w = true := by
  intro ks
  induction ks with
  | nil =>
      intro v hv w hw
      injection hw with h₁
      subst h₁
      exact hv
  | cons k ks ih =>
      intro v hv w hw
      simp only [evalSelR] at hw
      cases hu : rIndex h v k with
      | error e =>
          rw [hu, except_error_bind] at hw
          exact Except.noConfusion hw
      | ok u =>
          rw [hu, except_ok_bind] at hw
          exact ih u (rIndex_inHeap h hwf v k u hu) w hw

theorem rvInHeap_append (h l : RHeap) (v : RVal)
    (hv : rvInHeap h v = true) : rvInHeap (h ++ l) v = true := by
  cases v with
  | rref r =>
      rw [rvInHeap] at hv
      cases hn : rLookupNode h r with
      | none => rw [hn] at hv; exact absurd hv (by simp [Option.isSome])
      | some n =>
          rw [rvInHeap, rLookupNode_append_of_some h l r n hn]
          rfl
  | rnil => rfl
  | rbool b => rfl
  | rnum m => rfl
  | rstr s => rfl

theorem rWF_spread (h : RHeap) (r r₂ : Ref) (fs : List (String × RVal))
    (hwf : rWF h = true) (hroot : rLookupNode h r = some (.robj fs)) :
    rWF (spreadCommit h fs r₂) = true := by
  rw [spreadCommit, rWF, List.all_append]
  have hwf₂ := hwf
  rw [rWF, List.all_eq_true] at hwf₂
  simp only [Bool.and_eq_true, List.all_eq_true]
  refine ⟨?_, ?_⟩
  · intro p hp
    have := hwf₂ p hp
    simp only [Bool.and_eq_true, List.all_eq_true] at this
    exact ⟨this.1, fun v hv => rvInHeap_append h _ v (this.2 v hv)⟩
  · intro p hp
    simp only [List.mem_singleton] at hp
    subst hp
    have hat := rWF_at h hwf r _ hroot
    exact ⟨hat.1 fs rfl, fun v hv => rvInHeap_append h _ v (hat.2 v hv)⟩

theorem rLookup_self_of_nodup (fs : List (String × RVal))
    (hnd : nodupRKeys fs = true) :
    ∀ p ∈ fs, rLookup fs p.1 = some p.2 := by
  induction fs with
  | nil => intro p hp; exact absurd hp (List.not_mem_nil p)
  | cons q rest ih =>
      obtain ⟨k₁, v₁⟩ := q
      rw [nodupRKeys] at hnd
      simp only [Bool.and_eq_true, Bool.not_eq_true', List.any_eq_false] at hnd
      intro p hp
      rcases List.mem_cons.mp hp with hp | hp
      · subst hp
        rw [rLookup, if_pos rfl]
      · have hne : k₁ ≠ p.1 := by
          intro hk
          exact hnd.1 p hp (by rw [← hk]; simp)
        rw [rLookup, if_neg hne]
        exact ih hnd.2 p hp

theorem rFieldsSub_self (fs : List (String × RVal))
    (hnd : nodupRKeys fs = true) : rFieldsSub fs fs = true := by
  rw [rFieldsSub, List.all_eq_true]
  intro p hp
  rw [decide_eq_true_eq]
  exact rLookup_self_of_nodup fs hnd p hp

/-- The change test never fires on an identical reference (or identical
primitive): every branch of the source comparison reports equal. -/
theorem codeChangedR_self (h : RHeap) (hwf : rWF h = true) (v : RVal)
    (hv : rvInHeap h v = true) : codeChangedR h v v = false := by
  cases v with
  | rref r =>
      rw [rvInHeap] at hv
      cases hn : rLookupNode h r with
      | none => rw [hn] at hv; exact absurd hv (by simp [Option.isSome])
      | some nd =>
          cases nd with
          | rarr es =>
              have ha : rIsArray h (.rref r) = true := by rw [rIsArray, hn]
              rw [codeChangedR, ha]
              simp [siftArrayEqualsR]
          | robj fs =>
              cases hfs : fs with
              | nil =>
                  subst hfs
                  have ha : rIsArray h (.rref r) = true := by
                    rw [rIsArray, hn]
                    rfl
                  simp [codeChangedR, ha, siftArrayEqualsR, rElems, hn]
              | cons q qs =>
                  subst hfs
                  have ha : rIsArray h (.rref r) = false := by
                    rw [rIsArray, hn]
                    rfl
                  have hnd : nodupRKeys (q :: qs) = true :=
                    (rWF_at h hwf r _ hn).1 (q :: qs) rfl
                  simp [codeChangedR, ha, RVal.isRTable, siftDictEqualsR, hn,
                    rFieldsSub_self _ hnd]
  | rnil => rfl
  | rbool b => simp [codeChangedR, rIsArray, RVal.isRTable]
  | rnum m => simp [codeChangedR, rIsArray, RVal.isRTable]
  | rstr s => simp [codeChangedR, rIsArray, RVal.isRTable]

/-- The fresh spread's comparison of the old and new roots: the two top
tables are different references with identical entries, and the shallow
`===`-element comparisons report them equal. -/
theorem codeChangedR_spread_root (h : RHeap) (r r₂ : Ref)
    (fs : List (String × RVal)) (hwf : rWF h = true)
    (hf : rFresh r₂ h = true)
    (hroot : rLookupNode h r = some (.robj fs)) :
    codeChangedR (spreadCommit h fs r₂) (.rref r₂) (.rref r) = false := by
  have hne : r ≠ r₂ := by
    intro hx
    rw [hx, rFresh_lookup_none r₂ h hf] at hroot
    exact Option.noConfusion hroot
  have hl₂ : rLookupNode (spreadCommit h fs r₂) r₂ = some (.robj fs) := by
    rw [spreadCommit]
    exact rLookupNode_append_self h r₂ _ (rFresh_lookup_none r₂ h hf)
  have hlr : rLookupNode (spreadCommit h fs r₂) r = some (.robj fs) := by
    rw [spreadCommit]
    exact rLookupNode_append_of_some h _ r _ hroot
  cases hfs : fs with
  | nil =>
      subst hfs
      have ha₂ : rIsArray (spreadCommit h [] r₂) (.rref r₂) = true := by
        rw [rIsArray, hl₂]
        rfl
      have har : rIsArray (spreadCommit h [] r₂) (.rref r) = true := by
        rw [rIsArray, hlr]
        rfl
      simp [codeChangedR, ha₂, har, siftArrayEqualsR, rElems, hl₂, hlr]
  | cons q qs =>
      subst hfs
      have ha₂ : rIsArray (spreadCommit h (q :: qs) r₂) (.rref r₂)
          = false := by
        rw [rIsArray, hl₂]
        rfl
      have hnd : nodupRKeys (q :: qs) = true :=
        (rWF_at h hwf r _ hroot).1 (q :: qs) rfl
      simp [codeChangedR, ha₂, RVal.isRTable, siftDictEqualsR, hl₂, hlr,
        rFieldsSub_self _ hnd]

/-- Re-evaluating a non-identity selector after the no-change spread commit
returns exactly the submission-time reference/primitive: the first step
reads the same entry off the fresh top table, and everything deeper lives in
the untouched part of the heap. -/
theorem evalSelR_spread (h : RHeap) (r r₂ : Ref)
    (fs : List (String × RVal)) (hf : rFresh r₂ h = true)
    (hroot : rLookupNode h r = some (.robj fs)) (k : String) (ks : Sel) :
    evalSelR (spreadCommit h fs r₂) (k :: ks) (.rref r₂)
      = evalSelR h (k :: ks) (.rref r) := by
  have hl₂ : rLookupNode (spreadCommit h fs r₂) r₂ = some (.robj fs) := by
    rw [spreadCommit]
    exact rLookupNode_append_self h r₂ _ (rFresh_lookup_none r₂ h hf)
  simp only [evalSelR]
  have hidx₂ : rIndex (spreadCommit h fs r₂) (.rref r₂) k
      = .ok ((rLookup fs k).getD .rnil) := by
    rw [rIndex, hl₂]
  have hidx : rIndex h (.rref r) k = .ok ((rLookup fs k).getD .rnil) := by
    rw [rIndex, hroot]
  rw [hidx₂, hidx, except_ok_bind, except_ok_bind, spreadCommit]
  apply evalSelR_append h r₂ _ hf
  cases hlk : rLookup fs k with
  | none => rfl
  | some u =>
      have hu : u ∈ rNodeVals (.robj fs) := by
        rw [rNodeVals]
        exact rLookup_mem fs k u hlk
      exact rvAvoids_of_fresh r₂ h hf r _ hroot u hu

/-- Post-commit notification after a no-change cycle: every selector with a
defined submission-time snapshot re-evaluates — through the fresh spread
carrying the same entries — to what the snapshot captured (the identical
reference for table slices, the identical primitive otherwise), and no
branch of the source comparison fires. -/
theorem noop_notify (h : RHeap) (r r₂ : Ref) (fs : List (String × RVal))
    (hwf : rWF h = true) (hf : rFresh r₂ h = true)
    (hroot : rLookupNode h r = some (.robj fs)) :
    ∀ (sels : List Sel) (sn : List (Option RVal)),
      snapshotSelsR h (.rref r) sels = .ok sn →
      ∀ (base : Nat) (snaps : List (Option RVal)),
        (∀ j, snaps.getD (base + j) none = sn.getD j none) →
        notifySelectorsR (spreadCommit h fs r₂) (.rref r₂) snaps base sels
          = ([], .ok ()) := by
  intro sels
  induction sels with
  | nil => intro sn _ base snaps _; rfl
  | cons s rest ih =>
      intro sn hsn base snaps hj
      rw [snapshotSelsR] at hsn
      cases he : evalSelR h s (.rref r) with
      | error e =>
          rw [he, except_error_bind] at hsn
          exact Except.noConfusion hsn
      | ok v =>
          rw [he, except_ok_bind] at hsn
          cases hsn₂ : snapshotSelsR h (.rref r) rest with
          | error e =>
              rw [hsn₂, except_error_bind] at hsn
              exact Except.noConfusion hsn
          | ok sn₂ =>
              rw [hsn₂, except_ok_bind] at hsn
              injection hsn with hsn₁
              subst hsn₁
              have hhead : snaps.getD base none = optSnap v := by
                have h0 := hj 0
                simpa only [Nat.add_zero, List.getD_cons_zero] using h0
              have htail : ∀ j, snaps.getD (base + 1 + j) none
                  = sn₂.getD j none := by
                intro j
                have hx := hj (j + 1)
                have harith : base + (j + 1) = base + 1 + j := by omega
                rw [harith] at hx
                simpa only [List.getD_cons_succ] using hx
              have hrest := ih sn₂ hsn₂ (base + 1) snaps htail
              by_cases hvnil : v = .rnil
              · subst hvnil
                rw [notifySelectorsR, hhead]
                exact hrest
              · have hsome : optSnap v = some v := by
                  cases v with
                  | rnil => exact absurd rfl hvnil
                  | rbool b => rfl
                  | rnum m => rfl
                  | rstr s₃ => rfl
                  | rref r₃ => rfl
                rw [hsome] at hhead
                cases s with
                | nil =>
                    have hv : v = .rref r := by
                      have hid : Except.ok (RVal.rref r) = Except.ok v := he
                      injection hid with h₁
                      exact h₁.symm
                    subst hv
                    rw [notifySelectorsR, hhead]
                    simp only [evalSelR]
                    rw [hrest]
                    simp [codeChangedR_spread_root h r r₂ fs hwf hf hroot]
                | cons k ks =>
                    have hres : evalSelR (spreadCommit h fs r₂) (k :: ks)
                        (.rref r₂) = .ok v := by
                      rw [evalSelR_spread h r r₂ fs hf hroot k ks]
                      exact he
                    have hinv : rvInHeap (spreadCommit h fs r₂) v = true := by
                      apply rvInHeap_append
                      exact evalSelR_inHeap h hwf (k :: ks) (.rref r)
                        (by rw [rvInHeap, hroot]; rfl) v he
                    have hch : codeChangedR (spreadCommit h fs r₂) v v
                        = false :=
                      codeChangedR_self (spreadCommit h fs r₂)
                        (rWF_spread h r r₂ fs hwf hroot) v hinv
                    rw [notifySelectorsR, hhead, hres, hrest]
                    simp [hch]

/-! ## Claim C3 (amended) -/

/-- C3 (amended): an update whose diff pass reports no change never fires
the diff channel; the selector loop still runs, comparing each
re-evaluation against the submission-time snapshot; submitted against an
idle queue, `update({})` is a full no-op — an empty payload's diff pass
always reports no change, and on the reference-level heap the unconditional
spread commit re-delivers every untouched slice as the identical reference,
which every branch of the source comparison reports unchanged, so no
selector fires; only when earlier queued updates changed the state between
submission and execution can a no-change update still fire listeners
(`c3_counterexample`). -/
theorem c3_no_change_update (fuel : Nat) (c : CrateM) (t : Task)
    (restq : List Task) (d : List (String × Val))
    (hq : c.queue = t :: restq)
    (happ : applyTop fuel c.mw c.state t.payload = .ok (d, false)) :
    (runNext fuel c).diffLog = c.diffLog ∧
    (∀ (f : Nat) (mw : MwTable) (st : Val),
      applyTop f mw st [] = .ok ([], false)) ∧
    (∀ (h : RHeap) (r r₂ : Ref) (fs : List (String × RVal))
        (sels : List Sel) (sn : List (Option RVal)),
      rWF h = true → rFresh r₂ h = true →
      rLookupNode h r = some (.robj fs) →
      snapshotSelsR h (.rref r) sels = .ok sn →
      notifySelectorsR (spreadCommit h fs r₂) (.rref r₂) sn 0 sels
        = ([], .ok ())) := by
  refine ⟨?_, ?_, ?_⟩
  · rw [runNext, hq]
    simp only [happ]
    simp
  · intro f mw st
    rw [applyTop]
    exact apply_nil mw st f st
  · intro h r r₂ fs sels sn hwf hf hroot hsn
    exact noop_notify h r r₂ fs hwf hf hroot sels sn hsn 0 sn
      (fun j => by simp)

/-- C3 (amended) witness: the machine part over state `{x: 0}` with an
empty payload queued; the heap part over `{a: {b: 1}, x: 0}` (table `0`
holding a reference to table `1`), fresh reference `2`, and selectors for
the identity, `a`, `a.b` and `x`. -/
theorem c3_no_change_update_witness :
    (applyTop 9 [] (.obj [("x", .num 0)]) ([] : List (String × Val))
        = .ok ([], false)) ∧
    rWF [(0, .robj [("a", .rref 1), ("x", .rnum 0)]),
      (1, .robj [("b", .rnum 1)])] = true ∧
    rFresh 2 [(0, .robj [("a", .rref 1), ("x", .rnum 0)]),
      (1, .robj [("b", .rnum 1)])] = true ∧
    snapshotSelsR [(0, .robj [("a", .rref 1), ("x", .rnum 0)]),
        (1, .robj [("b", .rnum 1)])] (.rref 0) [[], ["a"], ["a", "b"], ["x"]]
      = .ok [some (.rref 0), some (.rref 1), some (.rnum 1),
        some (.rnum 0)] ∧
    ((runNext 9
        { enabled := true, updAlive := true, state := .obj [("x", .num 0)],
          mw := [], selectors := [["x"]], queue := [⟨[], [some (.num 0)]⟩],
          diffLog := [], fireLog := [], taskLog := [] }).diffLog = [] ∧
      (∀ (f : Nat) (mw : MwTable) (st : Val),
        applyTop f mw st [] = .ok ([], false)) ∧
      (∀ (h : RHeap) (r r₂ : Ref) (fs : List (String × RVal))
          (sels : List Sel) (sn : List (Option RVal)),
        rWF h = true → rFresh r₂ h = true →
        rLookupNode h r = some (.robj fs) →
        snapshotSelsR h (.rref r) sels = .ok sn →
        notifySelectorsR (spreadCommit h fs r₂) (.rref r₂) sn 0 sels
          = ([], .ok ()))) :=
  ⟨rfl, by decide, by decide, rfl,
    c3_no_change_update 9
      { enabled := true, updAlive := true, state := .obj [("x", .num 0)],
        mw := [], selectors := [["x"]], queue := [⟨[], [some (.num 0)]⟩],
        diffLog := [], fireLog := [], taskLog := [] }
      ⟨[], [some (.num 0)]⟩ [] [] rfl rfl⟩

/-- Full characterization of one notification loop when no selector raises:
it completes, each selector fires at most once (indices strictly increase),
and `(i, v)` fires exactly when the selector at registry index `i` has a
defined snapshot `f`, re-evaluates to `v`, and `selectorChanged v f`. -/
theorem notify_spec (st : Val) (snaps : List (Option Val)) :
    ∀ (sels : List Sel) (base : Nat),
      (∀ s ∈ sels, (evalSel s st).isOk = true) →
      (notifySelectors st snaps base sels).2 = .ok () ∧
      (∀ iv ∈ (notifySelectors st snaps base sels).1, base ≤ iv.1) ∧
      (notifySelectors st snaps base sels).1.Pairwise (fun a b => a.1 < b.1) ∧
      (∀ i v, (i, v) ∈ (notifySelectors st snaps base sels).1 ↔
        ∃ j s f, i = base + j ∧ sels.get? j = some s ∧
          snaps.getD i none = some f ∧ evalSel s st = .ok v ∧
          selectorChanged v f = true) := by
  intro sels
  induction sels with
  | nil =>
      intro base _
      refine ⟨rfl, ?_, ?_, ?_⟩
      · intro iv hm; simp [notifySelectors] at hm
      · simp [notifySelectors]
      · intro i v
        simp [notifySelectors]
  | cons s rest ih =>
      intro base hok
      have hoks : (evalSel s st).isOk = true := hok s (by simp)
      have hokr : ∀ s₂ ∈ rest, (evalSel s₂ st).isOk = true := by
        intro s₂ h₂; exact hok s₂ (by simp [h₂])
      obtain ⟨ih1, ih2, ih3, ih4⟩ := ih (base + 1) hokr
      rw [notifySelectors]
      cases hb : snaps.getD base none with
      | none =>
          refine ⟨ih1, ?_, ih3, ?_⟩
          · intro iv hm
            have := ih2 iv hm
            omega
          · intro i v
            rw [ih4 i v]
            constructor
            · rintro ⟨j, s₂, f, hi, hget, hsnap, he, hch⟩
              exact ⟨j + 1, s₂, f, by omega, by simpa using hget, hsnap, he, hch⟩
            · rintro ⟨j, s₂, f, hi, hget, hsnap, he, hch⟩
              cases j with
              | zero =>
                  have : i = base := by omega
                  rw [this, hb] at hsnap
                  exact Option.noConfusion hsnap
              | succ j =>
                  refine ⟨j, s₂, f, by omega, by simpa using hget, hsnap, he, hch⟩
      | some fetch =>
          cases he : evalSel s st with
          | error e =>
              rw [he] at hoks
              simp [Except.isOk, Except.toBool] at hoks
          | ok result =>
              rcases hnf : notifySelectors st snaps (base + 1) rest with ⟨fs, r⟩
              rw [hnf] at ih1 ih2 ih3
              simp only at ih1 ih2 ih3
              have ih4' : ∀ i v, ((i, v) ∈ fs ↔
                  ∃ j s₂ f, i = base + 1 + j ∧ rest.get? j = some s₂ ∧
                    snaps.getD i none = some f ∧ evalSel s₂ st = .ok v ∧
                    selectorChanged v f = true) := by
                intro i v
                have := ih4 i v
                rw [hnf] at this
                simpa using this
              simp only [hnf]
              by_cases hch : selectorChanged result fetch = true
              · rw [if_pos hch]
                refine ⟨ih1, ?_, ?_, ?_⟩
                · intro iv hm
                  rcases List.mem_cons.mp hm with hm | hm
                  · subst hm; exact le_refl base
                  · have := ih2 iv hm; omega
                · refine List.pairwise_cons.mpr ⟨?_, ih3⟩
                  intro b hb₂
                  have := ih2 b hb₂
                  omega
                · intro i v
                  constructor
                  · intro hm
                    rcases List.mem_cons.mp hm with hm | hm
                    · injection hm with h₁ h₂
                      subst h₁
                      subst h₂
                      exact ⟨0, s, fetch, by omega, by simp, hb, he, hch⟩
                    · exact
                        let ⟨j, s₂, f, hi, hget, hsnap, he₂, hch₂⟩ :=
                          (ih4' i v).mp hm
                        ⟨j + 1, s₂, f, by omega, by simpa using hget, hsnap,
                          he₂, hch₂⟩
                  · rintro ⟨j, s₂, f, hi, hget, hsnap, he₂, hch₂⟩
                    cases j with
                    | zero =>
                        have hib : i = base := by omega
                        subst hib
                        have hs₂ : s₂ = s := by
                          have := hget
                          simp at this
                          exact this.symm
                        subst hs₂
                        rw [hb] at hsnap
                        injection hsnap with hf
                        subst hf
                        rw [he] at he₂
                        injection he₂ with hv
                        subst hv
                        exact List.mem_cons_self _ _
                    | succ j =>
                        have hm : (i, v) ∈ fs :=
                          (ih4' i v).mpr
                            ⟨j, s₂, f, by omega, by simpa using hget, hsnap,
                              he₂, hch₂⟩
                        exact List.mem_cons_of_mem _ hm
              · rw [if_neg hch]
                refine ⟨ih1, ?_, ih3, ?_⟩
                · intro iv hm
                  have := ih2 iv hm; omega
                · intro i v
                  rw [ih4' i v]
                  constructor
                  · rintro ⟨j, s₂, f, hi, hget, hsnap, he₂, hch₂⟩
                    exact ⟨j + 1, s₂, f, by omega, by simpa using hget, hsnap,
                      he₂, hch₂⟩
                  · rintro ⟨j, s₂, f, hi, hget, hsnap, he₂, hch₂⟩
                    cases j with
                    | zero =>
                        have hib : i = base := by omega
                        subst hib
                        have hs₂ : s₂ = s := by
                          have := hget; simp at this; exact this.symm
                        subst hs₂
                        rw [hb] at hsnap
                        injection hsnap with hf
                        subst hf
                        rw [he] at he₂
                        injection he₂ with hv
                        subst hv
                        exact absurd hch₂ hch
                    | succ j =>
                        exact ⟨j, s₂, f, by omega, by simpa using hget, hsnap,
                          he₂, hch₂⟩

/-- Full characterization of one reference-level notification loop when no
selector raises: it completes, each selector fires at most once (indices
strictly increase), and `(i, v)` fires exactly when the selector at registry
index `i` has a defined snapshot `f`, re-evaluates to `v`, and the source
comparison `codeChangedR` reports a change. -/
theorem notify_specR (hp : RHeap) (st : RVal) (snaps : List (Option RVal)) :
    ∀ (sels : List Sel) (base : Nat),
      (∀ s ∈ sels, (evalSelR hp s st).isOk = true) →
      (notifySelectorsR hp st snaps base sels).2 = .ok () ∧
      (∀ iv ∈ (notifySelectorsR hp st snaps base sels).1, base ≤ iv.1) ∧
      (notifySelectorsR hp st snaps base sels).1.Pairwise
        (fun a b => a.1 < b.1) ∧
      (∀ i v, (i, v) ∈ (notifySelectorsR hp st snaps base sels).1 ↔
        ∃ j s f, i = base + j ∧ sels.get? j = some s ∧
          snaps.getD i none = some f ∧ evalSelR hp s st = .ok v ∧
          codeChangedR hp v f = true) := by
  intro sels
  induction sels with
  | nil =>
      intro base _
      refine ⟨rfl, ?_, ?_, ?_⟩
      · intro iv hm; simp [notifySelectorsR] at hm
      · simp [notifySelectorsR]
      · intro i v
        simp [notifySelectorsR]
  | cons s rest ih =>
      intro base hok
      have hoks : (evalSelR hp s st).isOk = true := hok s (by simp)
      have hokr : ∀ s₂ ∈ rest, (evalSelR hp s₂ st).isOk = true := by
        intro s₂ h₂; exact hok s₂ (by simp [h₂])
      obtain ⟨ih1, ih2, ih3, ih4⟩ := ih (base + 1) hokr
      rw [notifySelectorsR]
      cases hb : snaps.getD base none with
      | none =>
          refine ⟨ih1, ?_, ih3, ?_⟩
          · intro iv hm
            have := ih2 iv hm
            omega
          · intro i v
            rw [ih4 i v]
            constructor
            · rintro ⟨j, s₂, f, hi, hget, hsnap, he, hch⟩
              exact ⟨j + 1, s₂, f, by omega, by simpa using hget, hsnap, he,
                hch⟩
            · rintro ⟨j, s₂, f, hi, hget, hsnap, he, hch⟩
              cases j with
              | zero =>
                  have : i = base := by omega
                  rw [this, hb] at hsnap
                  exact Option.noConfusion hsnap
              | succ j =>
                  refine ⟨j, s₂, f, by omega, by simpa using hget, hsnap, he,
                    hch⟩
      | some fetch =>
          cases he : evalSelR hp s st with
          | error e =>
              rw [he] at hoks
              simp [Except.isOk, Except.toBool] at hoks
          | ok result =>
              rcases hnf : notifySelectorsR hp st snaps (base + 1) rest
                with ⟨fs, r⟩
              rw [hnf] at ih1 ih2 ih3
              simp only at ih1 ih2 ih3
              have ih4a : ∀ i v, ((i, v) ∈ fs ↔
                  ∃ j s₂ f, i = base + 1 + j ∧ rest.get? j = some s₂ ∧
                    snaps.getD i none = some f ∧ evalSelR hp s₂ st = .ok v ∧
                    codeChangedR hp v f = true) := by
                intro i v
                have := ih4 i v
                rw [hnf] at this
                simpa using this
              simp only [hnf]
              by_cases hch : codeChangedR hp result fetch = true
              · rw [if_pos hch]
                refine ⟨ih1, ?_, ?_, ?_⟩
                · intro iv hm
                  rcases List.mem_cons.mp hm with hm | hm
                  · subst hm; exact le_refl base
                  · have := ih2 iv hm; omega
                · refine List.pairwise_cons.mpr ⟨?_, ih3⟩
                  intro b hb₂
                  have := ih2 b hb₂
                  omega
                · intro i v
                  constructor
                  · intro hm
                    rcases List.mem_cons.mp hm with hm | hm
                    · injection hm with h₁ h₂
                      subst h₁
                      subst h₂
                      exact ⟨0, s, fetch, by omega, by simp, hb, he, hch⟩
                    · exact
                        let ⟨j, s₂, f, hi, hget, hsnap, he₂, hch₂⟩ :=
                          (ih4a i v).mp hm
                        ⟨j + 1, s₂, f, by omega, by simpa using hget, hsnap,
                          he₂, hch₂⟩
                  · rintro ⟨j, s₂, f, hi, hget, hsnap, he₂, hch₂⟩
                    cases j with
                    | zero =>
                        have hib : i = base := by omega
                        subst hib
                        have hs₂ : s₂ = s := by
                          have := hget
                          simp at this
                          exact this.symm
                        subst hs₂
                        rw [hb] at hsnap
                        injection hsnap with hf
                        subst hf
                        rw [he] at he₂
                        injection he₂ with hv
                        subst hv
                        exact List.mem_cons_self _ _
                    | succ j =>
                        have hm : (i, v) ∈ fs :=
                          (ih4a i v).mpr
                            ⟨j, s₂, f, by omega, by simpa using hget, hsnap,
                              he₂, hch₂⟩
                        exact List.mem_cons_of_mem _ hm
              · rw [if_neg hch]
                refine ⟨ih1, ?_, ih3, ?_⟩
                · intro iv hm
                  have := ih2 iv hm; omega
                · intro i v
                  rw [ih4a i v]
                  constructor
                  · rintro ⟨j, s₂, f, hi, hget, hsnap, he₂, hch₂⟩
                    exact ⟨j + 1, s₂, f, by omega, by simpa using hget, hsnap,
                      he₂, hch₂⟩
                  · rintro ⟨j, s₂, f, hi, hget, hsnap, he₂, hch₂⟩
                    cases j with
                    | zero =>
                        have hib : i = base := by omega
                        subst hib
                        have hs₂ : s₂ = s := by
                          have := hget; simp at this; exact this.symm
                        subst hs₂
                        rw [hb] at hsnap
                        injection hsnap with hf
                        subst hf
                        rw [he] at he₂
                        injection he₂ with hv
                        subst hv
                        exact absurd hch₂ hch
                    | succ j =>
                        exact ⟨j, s₂, f, by omega, by simpa using hget, hsnap,
                          he₂, hch₂⟩

/-! ## Claim C4 (amended) -/

/-- C4 (amended): the selector snapshot is taken at *submission* time —
`update(p)` appends a task carrying the snapshots of the registered
selectors evaluated against the state as of the call — and, after a task
commits, each selector's listener fires at most once per cycle (fire
indices strictly increase), and `(i, v)` fires iff selector `i` had a
defined submission-time snapshot `f`, re-evaluates on the committed heap to
`v`, and `v` differs from `f` by the code's comparison
(`Sift.Array.equals` for two arrays, `Sift.Dictionary.equals` for two
tables, `!==` otherwise — with reference equality on table operands, so a
slice re-delivered as the identical reference never fires). -/
theorem c4_submission_snapshot_and_fire_rule (hp : RHeap) (st : RVal)
    (snaps : List (Option RVal)) (sels : List Sel)
    (hok : ∀ s ∈ sels, (evalSelR hp s st).isOk = true) :
    (notifySelectorsR hp st snaps 0 sels).2 = .ok () ∧
    (notifySelectorsR hp st snaps 0 sels).1.Pairwise
      (fun a b => a.1 < b.1) ∧
    (∀ i v, (i, v) ∈ (notifySelectorsR hp st snaps 0 sels).1 ↔
      ∃ s f, sels.get? i = some s ∧ snaps.getD i none = some f ∧
        evalSelR hp s st = .ok v ∧ codeChangedR hp v f = true) ∧
    (∀ (c : CrateM) (p : List (String × Val)) (c₂ : CrateM),
      update c p = .ok c₂ →
      ∃ sn, snapshotSels c.selectors c.state = .ok sn ∧
        c₂.queue = c.queue ++ [⟨p, sn⟩]) := by
  obtain ⟨h1, h2, h3, h4⟩ := notify_specR hp st snaps sels 0 hok
  refine ⟨h1, h3, ?_, ?_⟩
  · intro i v
    rw [h4 i v]
    constructor
    · rintro ⟨j, s, f, hi, hget, hsnap, he, hch⟩
      have : j = i := by omega
      subst this
      exact ⟨s, f, hget, hsnap, he, hch⟩
    · rintro ⟨s, f, hget, hsnap, he, hch⟩
      exact ⟨i, s, f, by omega, hget, hsnap, he, hch⟩
  · intro c p c₂ hupd
    rw [update] at hupd
    by_cases hen : c.enabled = true
    · rw [if_pos hen] at hupd
      cases hsn : snapshotSels c.selectors c.state with
      | error e => rw [hsn] at hupd; exact Except.noConfusion hupd
      | ok sn =>
          rw [hsn] at hupd
          injection hupd with hc₂
          exact ⟨sn, rfl, by rw [← hc₂]⟩
    · rw [if_neg hen] at hupd
      exact Except.noConfusion hupd

/-- C4 (amended) witness: heap `{a: {b: 1}, x: 1}` (table `0` holding a
reference to table `1`); selector `x` has stale submission snapshot `0` and
fires with `1`, selector `a` re-evaluates to the identical reference `1`
and stays silent. -/
theorem c4_submission_snapshot_and_fire_rule_witness :
    (∀ s ∈ [["x"], ["a"]],
      (evalSelR [(0, .robj [("a", .rref 1), ("x", .rnum 1)]),
          (1, .robj [("b", .rnum 1)])] s (.rref 0)).isOk = true) ∧
    ((notifySelectorsR [(0, .robj [("a", .rref 1), ("x", .rnum 1)]),
          (1, .robj [("b", .rnum 1)])] (.rref 0)
          [some (.rnum 0), some (.rref 1)] 0 [["x"], ["a"]]).2 = .ok () ∧
      (notifySelectorsR [(0, .robj [("a", .rref 1), ("x", .rnum 1)]),
          (1, .robj [("b", .rnum 1)])] (.rref 0)
          [some (.rnum 0), some (.rref 1)] 0
          [["x"], ["a"]]).1.Pairwise (fun a b => a.1 < b.1) ∧
      (∀ i v, (i, v) ∈ (notifySelectorsR
            [(0, .robj [("a", .rref 1), ("x", .rnum 1)]),
              (1, .robj [("b", .rnum 1)])] (.rref 0)
            [some (.rnum 0), some (.rref 1)] 0 [["x"], ["a"]]).1 ↔
        ∃ s f, [["x"], ["a"]].get? i = some s ∧
          ([some (.rnum 0), some (.rref 1)] : List (Option RVal)).getD i none
            = some f ∧
          evalSelR [(0, .robj [("a", .rref 1), ("x", .rnum 1)]),
            (1, .robj [("b", .rnum 1)])] s (.rref 0) = .ok v ∧
          codeChangedR [(0, .robj [("a", .rref 1), ("x", .rnum 1)]),
            (1, .robj [("b", .rnum 1)])] v f = true) ∧
      (∀ (c : CrateM) (p : List (String × Val)) (c₂ : CrateM),
        update c p = .ok c₂ →
        ∃ sn, snapshotSels c.selectors c.state = .ok sn ∧
          c₂.queue = c.queue ++ [⟨p, sn⟩])) :=
  ⟨by intro s hs
      rcases List.mem_cons.mp hs with hs | hs
      · subst hs; rfl
      · simp at hs; subst hs; rfl,
    c4_submission_snapshot_and_fire_rule
      [(0, .robj [("a", .rref 1), ("x", .rnum 1)]),
        (1, .robj [("b", .rnum 1)])] (.rref 0)
      [some (.rnum 0), some (.rref 1)] [["x"], ["a"]]
      (by intro s hs
          rcases List.mem_cons.mp hs with hs | hs
          · subst hs; rfl
          · simp at hs; subst hs; rfl)⟩

/-! ## Claim C8 (amended) -/

theorem notify_cons_none (st : Val) (snaps : List (Option Val)) (s : Sel)
    (l : List Sel) (base : Nat) (hb : snaps.getD base none = none) :
    notifySelectors st snaps base (s :: l)
      = notifySelectors st snaps (base + 1) l := by
  rw [notifySelectors, hb]

theorem notify_cons_ok (st : Val) (snaps : List (Option Val)) (s : Sel)
    (l : List Sel) (base : Nat) (fetch result : Val)
    (hb : snaps.getD base none = some fetch)
    (he : evalSel s st = .ok result) :
    notifySelectors st snaps base (s :: l)
      = (if selectorChanged result fetch = true
          then ((base, result) :: (notifySelectors st snaps (base + 1) l).1,
                (notifySelectors st snaps (base + 1) l).2)
          else notifySelectors st snaps (base + 1) l) := by
  rw [notifySelectors, hb, he]

/-- Splitting the notification loop: if the loop over a prefix completes
cleanly, the loop over the concatenation runs the prefix and continues into
the suffix at the shifted index. -/
theorem notify_append (st : Val) (snaps : List (Option Val)) :
    ∀ (l₁ l₂ : List Sel) (base : Nat) (f₁ : List (Nat × Val)),
      notifySelectors st snaps base l₁ = (f₁, .ok ()) →
      notifySelectors st snaps base (l₁ ++ l₂)
        = (f₁ ++ (notifySelectors st snaps (base + l₁.length) l₂).1,
           (notifySelectors st snaps (base + l₁.length) l₂).2) := by
  intro l₁
  induction l₁ with
  | nil =>
      intro l₂ base f₁ hok
      have hf : f₁ = [] := by
        have := congrArg Prod.fst hok
        exact this.symm
      subst hf
      simp
  | cons s rest ih =>
      intro l₂ base f₁ hok
      have hlen : base + (s :: rest).length = base + 1 + rest.length := by
        simp
        omega
      cases hb : snaps.getD base none with
      | none =>
          rw [notify_cons_none st snaps s rest base hb] at hok
          rw [List.cons_append,
            notify_cons_none st snaps s (rest ++ l₂) base hb,
            ih l₂ (base + 1) f₁ hok, hlen]
      | some fetch =>
          cases he : evalSel s st with
          | error e =>
              rw [notifySelectors, hb, he] at hok
              exact absurd (congrArg Prod.snd hok) (by simp)
          | ok result =>
              rw [notify_cons_ok st snaps s rest base fetch result hb he]
                at hok
              rcases hnf : notifySelectors st snaps (base + 1) rest
                with ⟨fs, r⟩
              rw [hnf] at hok
              rw [List.cons_append,
                notify_cons_ok st snaps s (rest ++ l₂) base fetch result hb he]
              by_cases hch : selectorChanged result fetch = true
              · rw [if_pos hch] at hok
                have hf : f₁ = (base, result) :: fs := by
                  have := congrArg Prod.fst hok
                  simpa using this.symm
                have hr : r = .ok () := by
                  have := congrArg Prod.snd hok
                  simpa using this
                rw [ih l₂ (base + 1) fs (by rw [hnf, hr])]
                simp only [hch, hf, hlen, if_true, List.cons_append,
                  List.length_cons, Prod.mk.injEq]
                have harith : base + 1 + rest.length
                    = base + (rest.length + 1) := by omega
                rw [harith]
                exact ⟨rfl, rfl⟩
              · rw [if_neg hch] at hok
                rw [ih l₂ (base + 1) f₁ (hnf.trans hok)]
                simp only [List.length_cons, Prod.mk.injEq]
                have harith : base + 1 + rest.length
                    = base + (rest.length + 1) := by omega
                rw [harith, if_neg hch]

/-- A selector with a defined snapshot that raises on re-evaluation aborts
the loop at its own position, keeping no fires of its own. -/
theorem notify_abort (st : Val) (snaps : List (Option Val)) (s : Sel)
    (post : List Sel) (base : Nat) (fetch : Val)
    (hsnap : snaps.getD base none = some fetch)
    (herr : evalSel s st = .error ()) :
    notifySelectors st snaps base (s :: post) = ([], .error ()) := by
  rw [notifySelectors, hsnap, herr]

/-- C8 (amended): a selector that raises during post-commit re-evaluation is
not caught: the update task's own completion handle rejects, selectors after
it in registration order are not evaluated and do not fire, while the fires
already delivered by earlier selectors, the committed state, and the
diff-channel fire all stand. -/
theorem c8_selector_error_rejects_task (fuel : Nat) (c : CrateM) (t : Task)
    (restq : List Task) (d : List (String × Val)) (ch : Bool)
    (pre post : List Sel) (s : Sel) (f₁ : List (Nat × Val)) (fetch : Val)
    (hq : c.queue = t :: restq)
    (happ : applyTop fuel c.mw c.state t.payload = .ok (d, ch))
    (hsel : c.selectors = pre ++ s :: post)
    (hpre : notifySelectors (shallowMerge c.state d) t.snaps 0 pre
      = (f₁, .ok ()))
    (hsnap : t.snaps.getD pre.length none = some fetch)
    (herr : evalSel s (shallowMerge c.state d) = .error ()) :
    (runNext fuel c).taskLog = c.taskLog ++ [.error ()] ∧
    (runNext fuel c).state = shallowMerge c.state d ∧
    (runNext fuel c).diffLog
      = (if ch then c.diffLog ++ [d] else c.diffLog) ∧
    (runNext fuel c).fireLog
      = (if c.updAlive then c.fireLog ++ f₁ else c.fireLog) := by
  have hnotify : notifySelectors (shallowMerge c.state d) t.snaps 0
      c.selectors = (f₁, .error ()) := by
    rw [hsel, notify_append (shallowMerge c.state d) t.snaps pre (s :: post) 0
      f₁ hpre]
    rw [notify_abort (shallowMerge c.state d) t.snaps s post (0 + pre.length)
      fetch (by simpa using hsnap) herr]
    simp
  rw [runNext, hq]
  simp only [happ, hnotify]
  refine ⟨?_, ?_, ?_, ?_⟩ <;> simp

/-- C8 (amended) witness: state `{a: {b: 1}, x: 0}` already committed to
`{a: 5, x: 1}`, selectors `s.a.b` (raises) and `s.x`; the empty prefix fires
nothing, the raising selector rejects the task, `s.x` never runs. -/
theorem c8_selector_error_rejects_task_witness :
    ((⟨[("a", .num 5), ("x", .num 1)],
        [some (.num 1), some (.num 0)]⟩ : Task).snaps.getD 0 none
      = some (.num 1)) ∧
    ((runNext 9
        { enabled := true, updAlive := true,
          state := .obj [("a", .obj [("b", .num 1)]), ("x", .num 0)],
          mw := [], selectors := [["a", "b"], ["x"]],
          queue := [⟨[("a", .num 5), ("x", .num 1)],
            [some (.num 1), some (.num 0)]⟩],
          diffLog := [], fireLog := [], taskLog := [] }).taskLog
        = [] ++ [.error ()] ∧
      (runNext 9
        { enabled := true, updAlive := true,
          state := .obj [("a", .obj [("b", .num 1)]), ("x", .num 0)],
          mw := [], selectors := [["a", "b"], ["x"]],
          queue := [⟨[("a", .num 5), ("x", .num 1)],
            [some (.num 1), some (.num 0)]⟩],
          diffLog := [], fireLog := [], taskLog := [] }).state
        = shallowMerge (.obj [("a", .obj [("b", .num 1)]), ("x", .num 0)])
            [("a", .num 5), ("x", .num 1)] ∧
      (runNext 9
        { enabled := true, updAlive := true,
          state := .obj [("a", .obj [("b", .num 1)]), ("x", .num 0)],
          mw := [], selectors := [["a", "b"], ["x"]],
          queue := [⟨[("a", .num 5), ("x", .num 1)],
            [some (.num 1), some (.num 0)]⟩],
          diffLog := [], fireLog := [], taskLog := [] }).diffLog
        = (if true then ([] : List (List (String × Val)))
            ++ [[("a", .num 5), ("x", .num 1)]] else []) ∧
      (runNext 9
        { enabled := true, updAlive := true,
          state := .obj [("a", .obj [("b", .num 1)]), ("x", .num 0)],
          mw := [], selectors := [["a", "b"], ["x"]],
          queue := [⟨[("a", .num 5), ("x", .num 1)],
            [some (.num 1), some (.num 0)]⟩],
          diffLog := [], fireLog := [], taskLog := [] }).fireLog
        = (if true then ([] : List (Nat × Val)) ++ [] else [])) :=
  ⟨rfl,
    c8_selector_error_rejects_task 9
      { enabled := true, updAlive := true,
        state := .obj [("a", .obj [("b", .num 1)]), ("x", .num 0)],
        mw := [], selectors := [["a", "b"], ["x"]],
        queue := [⟨[("a", .num 5), ("x", .num 1)],
          [some (.num 1), some (.num 0)]⟩],
        diffLog := [], fireLog := [], taskLog := [] }
      ⟨[("a", .num 5), ("x", .num 1)], [some (.num 1), some (.num 0)]⟩
      [] [("a", .num 5), ("x", .num 1)] true [] [["x"]] ["a", "b"] []
      (.num 1) rfl rfl rfl rfl rfl rfl⟩

/-! ## Claim C9 (amended) -/

/-- C9 (amended): a selector is skipped for the cycle when its *pre-update*
snapshot is undefined (absent or `nil`); no index with an undefined
snapshot ever fires.  (An undefined/`nil` *post-update* result is not
skipped: the listener then fires with `nil`, as `c9_counterexample`
shows.) -/
theorem c9_skip_undefined_snapshot (st : Val) (snaps : List (Option Val))
    (sels : List Sel) (base i : Nat)
    (hsnap : snaps.getD i none = none) :
    ∀ v, (i, v) ∉ (notifySelectors st snaps base sels).1 := by
  induction sels generalizing base with
  | nil =>
      intro v h
      simp [notifySelectors] at h
  | cons s rest ih =>
      intro v hmem
      rw [notifySelectors] at hmem
      cases hb : snaps.getD base none with
      | none =>
          rw [hb] at hmem
          exact ih (base + 1) v hmem
      | some fetch =>
          rw [hb] at hmem
          cases he : evalSel s st with
          | error e =>
              rw [he] at hmem
              simp at hmem
          | ok result =>
              rw [he] at hmem
              simp only at hmem
              by_cases hch : selectorChanged result fetch = true
              · rw [if_pos hch] at hmem
                rcases List.mem_cons.mp hmem with heq | hmem₂
                · have hbase : i = base := by
                    injection heq with h₁ h₂
                  rw [hbase, hb] at hsnap
                  exact Option.noConfusion hsnap
                · exact ih (base + 1) v hmem₂
              · rw [if_neg hch] at hmem
                exact ih (base + 1) v hmem

/-- C9 (amended) witness: snapshot list `[none]`, selector on `x` over
state `{x: 1}` — index `0` never fires. -/
theorem c9_skip_undefined_snapshot_witness :
    (([none] : List (Option Val)).getD 0 none = none) ∧
    ∀ v, (0, v) ∉ (notifySelectors (.obj [("x", .num 1)]) [none] 0 [["x"]]).1 :=
  ⟨rfl, c9_skip_undefined_snapshot (.obj [("x", .num 1)]) [none] [["x"]] 0 0 rfl⟩

/-- C10 (amended) witness. -/
theorem c10_construct_aliasing_witness :
    (0 : Ref) ∈ ([(0, [("a", HVal.hnum 1)])] : Heap).map Prod.fst ∧
    (construct 0 = 0 ∧
      getStateKeyH (setField [(0, [("a", HVal.hnum 1)])] 0 "a" (.hnum 7))
        (construct 0) "a" = some (.hnum 7)) :=
  ⟨by simp, c10_construct_aliasing [(0, [("a", HVal.hnum 1)])] 0 "a"
    (.hnum 7) (by simp)⟩

end Crate


